import Mathlib

/-!
Verification development for the NEMU sdb expression engine
(`src/monitor/sdb/expr.c`) and watchpoint registry
(`src/monitor/sdb/watchpoint.c`).

The C code is shallowly embedded:
* machine integers are `Int` with explicit two's-complement wrapping
  (`wrap64`) where 64-bit overflow matters;
* `assert(0)` / process aborts and C undefined behaviour on the paths we
  reason about are modelled by `Except.error ()`; the soft error paths of
  the C code (which print a diagnostic and return the value 0) are
  modelled as `Except.ok` of the value the C code returns, exactly as the
  C caller observes them;
* the two injected capabilities that live outside this repository
  (`isa_reg_str2val` and `vaddr_read`) are parameters
  (`regs : String → Option Int`, `mem : Int → Nat → Int`), following the
  spec's `RegisterResolver` / `MemoryReader` interfaces.

Recursive C functions are embedded with an explicit fuel argument so that
every definition is executable by kernel reduction; the top-level entry
points supply fuel that provably dominates the C recursion depth.
-/

set_option maxRecDepth 100000

/-! ## Token kinds (enum `token_enum_t` in expr.c)

`DUMMY_1`/`DUMMY_2`/`DUMMY_3` are the ambiguous rule-level kinds for the
characters `+`/`-`/`*`; they are resolved by `make_token` into
`TK_ADD`/`TK_POS` etc. and never appear in an emitted token.  The
single-character kinds `'('`, `')'`, `'/'`, `'<'`, `'>'` of the C enum are
`TK_PAR_L`, `TK_PAR_R`, `TK_DIV`, `TK_BOOL_LT`, `TK_BOOL_GT` here. -/
inductive TType where
  | DUMMY_1 | DUMMY_2 | DUMMY_3
  | TK_DIV | TK_PAR_L | TK_PAR_R | TK_BOOL_LT | TK_BOOL_GT
  | TK_NOTYPE | TK_BOOL_EQ | TK_INT | TK_REG | TK_BOOL_LE | TK_BOOL_GE
  | TK_ADD | TK_MINUS | TK_MUL
  | TK_POS | TK_NEG | TK_DEREF
  deriving DecidableEq, Repr

/-- Token record (`struct token` in expr.c).  The C code copies the matched
text into `str` only for `TK_INT` and `TK_REG`; for every other kind the C
field holds stale bytes that are never read as data, modelled here as `""`. -/
structure Token where
  type : TType
  str : String
  deriving DecidableEq, Repr

/-- Function `get_priority` of expr.c.  The C function `assert(0)`s on a
kind that is not an operator ("You should never get the priority of an
operand"); that abort is modelled by `none`. -/
def get_priority : TType → Option Int
  | .TK_POS | .TK_NEG | .TK_DEREF => some 3
  | .TK_MUL | .TK_DIV => some 2
  | .TK_ADD | .TK_MINUS => some 1
  | .TK_BOOL_EQ | .TK_BOOL_LT | .TK_BOOL_GT | .TK_BOOL_LE | .TK_BOOL_GE => some 0
  | _ => none

/-- Function `is_operand` of expr.c: integer literal, register reference or
close parenthesis. -/
def is_operand : TType → Bool
  | .TK_INT | .TK_REG | .TK_PAR_R => true
  | _ => false

/-! ## The lexer rule table (`rules[]` in expr.c)

Each rule's POSIX regex is embedded as a matcher
`List Char → Option Nat` returning the length of the (leftmost-longest)
match when the regex matches starting exactly at offset 0 of the given
suffix, and `none` otherwise — precisely the `res == 0 && rm_so == 0`
condition of `make_token`.  Every pattern in the table matches at least
one character. -/

/-- Length of the maximal run of characters satisfying `p` at the head. -/
def run_len (p : Char → Bool) : List Char → Nat
  | [] => 0
  | c :: cs => if p c then run_len p cs + 1 else 0

/-- GNU regex `\w`: letters, digits and underscore. -/
def is_word_char (c : Char) : Bool := c.isAlphanum || c = '_'

/-- Rule 0, regex `" +"`: one or more spaces. -/
def match_spaces (cs : List Char) : Option Nat :=
  if run_len (fun c => c = ' ') cs = 0 then none else some (run_len (fun c => c = ' ') cs)

/-- Rule 1, regex `"\+"`. -/
def match_plus : List Char → Option Nat
  | '+' :: _ => some 1
  | _ => none

/-- Rule 2, regex `"-"`. -/
def match_minus : List Char → Option Nat
  | '-' :: _ => some 1
  | _ => none

/-- Rule 3, regex `"\*"`. -/
def match_star : List Char → Option Nat
  | '*' :: _ => some 1
  | _ => none

/-- Rule 4, regex `"/"`. -/
def match_slash : List Char → Option Nat
  | '/' :: _ => some 1
  | _ => none

/-- Rule 5, regex `"=="`. -/
def match_eqeq : List Char → Option Nat
  | '=' :: '=' :: _ => some 2
  | _ => none

/-- Rule 6, regex `"(0x)?[0-9]+"` (POSIX leftmost-longest at offset 0):
with a literal `0x` prefix followed by at least one digit the whole
prefixed run matches; otherwise a leading digit run matches; a string
whose head is not a digit does not match at offset 0. -/
def match_int : List Char → Option Nat
  | '0' :: 'x' :: rest =>
      if 0 < run_len Char.isDigit rest then some (2 + run_len Char.isDigit rest) else some 1
  | c :: rest => if c.isDigit then some (1 + run_len Char.isDigit rest) else none
  | [] => none

/-- Rule 7, regex `"\("`. -/
def match_lpar : List Char → Option Nat
  | '(' :: _ => some 1
  | _ => none

/-- Rule 8, regex `"\)"`. -/
def match_rpar : List Char → Option Nat
  | ')' :: _ => some 1
  | _ => none

/-- Rule 9, regex `"\$\w+"`: a dollar sign followed by at least one word
character. -/
def match_reg : List Char → Option Nat
  | '$' :: rest => if 0 < run_len is_word_char rest then some (1 + run_len is_word_char rest) else none
  | _ => none

/-- Rule 10, regex `"<"`. -/
def match_lt : List Char → Option Nat
  | '<' :: _ => some 1
  | _ => none

/-- Rule 11, regex `">"`. -/
def match_gt : List Char → Option Nat
  | '>' :: _ => some 1
  | _ => none

/-- Rule 12, regex `"<="`. -/
def match_le : List Char → Option Nat
  | '<' :: '=' :: _ => some 2
  | _ => none

/-- Rule 13, regex `">="`. -/
def match_ge : List Char → Option Nat
  | '>' :: '=' :: _ => some 2
  | _ => none

/-- The rule table `rules[]` of expr.c, in its declared order. -/
def rules : List ((List Char → Option Nat) × TType) :=
  [ (match_spaces, .TK_NOTYPE),
    (match_plus,   .DUMMY_1),
    (match_minus,  .DUMMY_2),
    (match_star,   .DUMMY_3),
    (match_slash,  .TK_DIV),
    (match_eqeq,   .TK_BOOL_EQ),
    (match_int,    .TK_INT),
    (match_lpar,   .TK_PAR_L),
    (match_rpar,   .TK_PAR_R),
    (match_reg,    .TK_REG),
    (match_lt,     .TK_BOOL_LT),
    (match_gt,     .TK_BOOL_GT),
    (match_le,     .TK_BOOL_LE),
    (match_ge,     .TK_BOOL_GE) ]

/-- The inner `for` loop of `make_token`: try the rules in declared table
order; the first rule whose pattern matches at offset 0 wins. -/
def first_rule_match : List ((List Char → Option Nat) × TType) → List Char → Option (TType × Nat)
  | [], _ => none
  | r :: rs, cs =>
      match r.1 cs with
      | some len => some (r.2, len)
      | none => first_rule_match rs cs

/-- Emission step of `make_token`'s `switch` for one matched token: the
new token list (the C code appends to the global `tokens` array).
`TK_NOTYPE` (whitespace) is discarded; `TK_REG`/`TK_INT` record the
matched text; the ambiguous `DUMMY_*` kinds are resolved to unary or
binary by inspecting the previously emitted token (`num_of_token == 0 ||
!is_operand(tokens[num_of_token-1].type)`); every other kind is emitted
as itself. -/
def emit_token (acc : List Token) (t : TType) (text : String) : List Token :=
  match t with
  | .TK_NOTYPE => acc
  | .TK_REG => acc ++ [⟨.TK_REG, text⟩]
  | .TK_INT => acc ++ [⟨.TK_INT, text⟩]
  | .DUMMY_1 =>
      if acc.length = 0 ∨ is_operand ((acc.getLast?.getD ⟨.TK_NOTYPE, ""⟩).type) = false then
        acc ++ [⟨.TK_POS, ""⟩]
      else
        acc ++ [⟨.TK_ADD, ""⟩]
  | .DUMMY_2 =>
      if acc.length = 0 ∨ is_operand ((acc.getLast?.getD ⟨.TK_NOTYPE, ""⟩).type) = false then
        acc ++ [⟨.TK_NEG, ""⟩]
      else
        acc ++ [⟨.TK_MINUS, ""⟩]
  | .DUMMY_3 =>
      if acc.length = 0 ∨ is_operand ((acc.getLast?.getD ⟨.TK_NOTYPE, ""⟩).type) = false then
        acc ++ [⟨.TK_DEREF, ""⟩]
      else
        acc ++ [⟨.TK_MUL, ""⟩]
  | other => acc ++ [⟨other, ""⟩]

/-- The scan loop of `make_token`.  `none` models returning `false` (a lex
failure: no rule matched at the current position).  Fuel bounds the number
of loop iterations; every rule consumes at least one character, so fuel
equal to the length of the input suffices (`make_token`).

The C code has no bound check on the 32-slot `tokens` array or on the
31-byte `str` buffer; overruns are undefined behaviour in C and are not
modelled (no claim reaches them). -/
def make_token_aux : Nat → List Char → List Token → Option (List Token)
  | _, [], acc => some acc
  | 0, _ :: _, _ => none
  | fuel + 1, cs, acc =>
      match first_rule_match rules cs with
      | none => none
      | some (t, len) =>
          make_token_aux fuel (cs.drop len) (emit_token acc t (String.mk (cs.take len)))

/-- Function `make_token` of expr.c: lex the whole input string. -/
def make_token (s : String) : Option (List Token) :=
  make_token_aux s.toList.length s.toList []

/-! ## Evaluator (`cal_expr` and helpers in expr.c) -/

/-- Read of the global `tokens` array at an `int` index.  Within the
ranges the claims exercise the index is always in bounds; an out-of-range
read is stale data or undefined behaviour in C and is modelled by a dummy
whitespace token. -/
def tok_at (ts : List Token) (i : Int) : Token :=
  if h : 0 ≤ i ∧ i.toNat < ts.length then ts.get ⟨i.toNat, h.2⟩ else ⟨.TK_NOTYPE, ""⟩

/-- The index list `[b, e)` of a C `for (i = b; i < e; i++)` loop. -/
def idx_list (b e : Int) : List Int :=
  (List.range (e - b).toNat).map (fun (k : Nat) => b + (k : Int))

/-- Loop of `check_parentheses`: running open-parenthesis counter; returns
`false` as soon as the counter would go negative after a `)`. -/
def check_parens_aux (ts : List Token) : List Int → Int → Bool
  | [], _ => true
  | i :: rest, n =>
      match (tok_at ts i).type with
      | .TK_PAR_L => check_parens_aux ts rest (n + 1)
      | .TK_PAR_R => if n - 1 < 0 then false else check_parens_aux ts rest (n - 1)
      | _ => check_parens_aux ts rest n

/-- Function `check_parentheses` of expr.c over the inclusive index range
`[b, e]`. -/
def check_parentheses (ts : List Token) (b e : Int) : Bool :=
  check_parens_aux ts (idx_list b (e + 1)) 0

/-- Loop body of `find_major_operator` over the remaining index list, with
state (paren depth, current minimum priority, current candidate).
`TK_INT` is skipped; parentheses adjust the depth and are themselves
skipped; tokens inside parentheses (depth > 0) are skipped; a non-paren,
non-int token at negative depth hits `assert(0)` (modelled `.error ()`),
as does `get_priority` of a non-operator kind; otherwise a priority less
than or equal to the running minimum makes the token the new candidate. -/
def find_major_aux (ts : List Token) : List Int → Int × Int × Int → Except Unit Int
  | [], (_, _, maj) => .ok maj
  | i :: rest, (d, m, maj) =>
      match (tok_at ts i).type with
      | .TK_INT => find_major_aux ts rest (d, m, maj)
      | .TK_PAR_L => find_major_aux ts rest (d + 1, m, maj)
      | .TK_PAR_R => find_major_aux ts rest (d - 1, m, maj)
      | t =>
          if 0 < d then find_major_aux ts rest (d, m, maj)
          else if d < 0 then .error ()
          else
            match get_priority t with
            | none => .error ()
            | some p =>
                if p ≤ m then find_major_aux ts rest (d, p, i)
                else find_major_aux ts rest (d, m, maj)

/-- Function `find_major_operator` of expr.c: scan `[b, e)` (the C loop is
`for (i = begin_index; i < end_index; i++)`, excluding the inclusive range
end) starting from depth 0, minimum priority 2 (so unary operators of
priority 3 are never chosen) and candidate `-1`. -/
def find_major_operator (ts : List Token) (b e : Int) : Except Unit Int :=
  find_major_aux ts (idx_list b e) (0, 2, -1)

/-- Two's-complement wrap of an integer to signed 64 bits (the `int64_t`
arithmetic used by `cal_expr`; signed overflow is undefined in C and is
modelled as wrapping). -/
def wrap64 (z : Int) : Int :=
  (z + 9223372036854775808) % 18446744073709551616 - 9223372036854775808

/-- Decimal digit run parser (stops at the first non-digit). -/
def parse_dec : List Char → Nat → Nat
  | c :: cs, acc => if c.isDigit then parse_dec cs (acc * 10 + (c.toNat - 48)) else acc
  | [], acc => acc

/-- Octal digit run parser (stops at the first non-octal-digit). -/
def parse_oct : List Char → Nat → Nat
  | c :: cs, acc =>
      if '0' ≤ c ∧ c ≤ '7' then parse_oct cs (acc * 8 + (c.toNat - 48)) else acc
  | [], acc => acc

/-- Hexadecimal digit value. -/
def hex_val (c : Char) : Nat :=
  if c.isDigit then c.toNat - 48
  else if 'a' ≤ c ∧ c ≤ 'f' then c.toNat - 87
  else c.toNat - 55

/-- Hexadecimal digit test. -/
def is_hex_digit (c : Char) : Bool :=
  c.isDigit || ('a' ≤ c ∧ c ≤ 'f') || ('A' ≤ c ∧ c ≤ 'F')

/-- Hexadecimal digit run parser. -/
def parse_hex : List Char → Nat → Nat
  | c :: cs, acc => if is_hex_digit c then parse_hex cs (acc * 16 + hex_val c) else acc
  | [], acc => acc

/-- `strtol(str, NULL, 0)` as applied by `cal_expr` to the text of a
`TK_INT` token.  The lexer only ever produces texts matching
`(0x)?[0-9]+`, so base detection ("0x" prefix → hex, leading "0" → octal,
otherwise decimal, parsing the maximal digit run of that base) is the
whole reachable behaviour; `strtol`'s leading-whitespace/sign handling and
`LONG_MAX` clamping are unreachable for such texts and are omitted. -/
def strtol0 (s : String) : Int :=
  match s.toList with
  | '0' :: 'x' :: cs => (parse_hex cs 0 : Int)
  | '0' :: cs => (parse_oct cs 0 : Int)
  | cs => (parse_dec cs 0 : Int)

/-- Function `cal_expr` of expr.c over the inclusive token range `[b, e]`,
parametrised by the register resolver (`isa_reg_str2val`, spec
`RegisterResolver`) and memory reader (`vaddr_read`, spec `MemoryReader`).

`.error ()` models the aborting paths: the `assert(0)` fall-throughs of
the `begin_index > end_index` and two-token branches, the
`assert(major_op_pos != -1)`, an abort inside `find_major_operator`, and
the hardware trap of division by zero.  The soft error paths (mismatched
parentheses, unknown register, invalid single token) print a diagnostic
and return 0 in C, hence `.ok 0` here.  Fuel bounds the recursion depth;
each recursive call strictly shrinks the range, so the range length
dominates it (`expr` supplies `length + 1`). -/
def cal_expr (regs : String → Option Int) (mem : Int → Nat → Int) :
    Nat → List Token → Int → Int → Except Unit Int
  | 0, _, _, _ => .error ()
  | fuel + 1, ts, b0, e0 =>
      if check_parentheses ts b0 e0 = false then .ok 0
      else
        let strip : Bool := (tok_at ts b0).type = .TK_PAR_L ∧ (tok_at ts e0).type = .TK_PAR_R
        let b : Int := if strip then b0 + 1 else b0
        let e : Int := if strip then e0 - 1 else e0
        if b > e then .error ()
        else if b = e then
          match (tok_at ts b).type with
          | .TK_INT => .ok (wrap64 (strtol0 (tok_at ts b).str))
          | .TK_REG =>
              match regs (tok_at ts b).str with
              | some v => .ok (wrap64 v)
              | none => .ok 0
          | _ => .ok 0
        else if e - b = 1 then
          match (tok_at ts b).type with
          | .TK_POS => cal_expr regs mem fuel ts (b + 1) e
          | .TK_NEG => (cal_expr regs mem fuel ts (b + 1) e).map (fun v => wrap64 (-v))
          | .TK_DEREF => (cal_expr regs mem fuel ts (b + 1) e).map (fun v => wrap64 (mem v 8))
          | _ => .error ()
        else
          match find_major_operator ts b e with
          | .error _ => .error ()
          | .ok maj =>
              if maj = -1 then .error ()
              else
                match cal_expr regs mem fuel ts b (maj - 1) with
                | .error _ => .error ()
                | .ok v1 =>
                    match cal_expr regs mem fuel ts (maj + 1) e with
                    | .error _ => .error ()
                    | .ok v2 =>
                        match (tok_at ts maj).type with
                        | .TK_ADD => .ok (wrap64 (v1 + v2))
                        | .TK_MINUS => .ok (wrap64 (v1 - v2))
                        | .TK_MUL => .ok (wrap64 (v1 * v2))
                        | .TK_DIV => if v2 = 0 then .error () else .ok (wrap64 (Int.tdiv v1 v2))
                        | .TK_BOOL_EQ => .ok (if v1 = v2 then 1 else 0)
                        | .TK_BOOL_GT => .ok (if v1 > v2 then 1 else 0)
                        | .TK_BOOL_LT => .ok (if v1 < v2 then 1 else 0)
                        | .TK_BOOL_GE => .ok (if v1 ≥ v2 then 1 else 0)
                        | .TK_BOOL_LE => .ok (if v1 ≤ v2 then 1 else 0)
                        | _ => .error ()

/-- Function `expr` of expr.c, the `evaluate_text` entry point.  The C
signature is `word_t expr(char *e, bool *success)`: on a lex failure it
sets `*success = false` and returns 0; otherwise it returns
`cal_expr(0, num_of_token - 1)` and — crucially — never writes to
`*success` at all, so the flag keeps the caller's incoming value
(`succ_in`).  The result pairs the returned value (as the signed 64-bit
value computed by `cal_expr`; the C return type `word_t` reinterprets the
same bits unsigned) with the final contents of the flag. -/
def expr (s : String) (regs : String → Option Int) (mem : Int → Nat → Int)
    (succ_in : Bool) : Except Unit (Int × Bool) :=
  match make_token s with
  | none => .ok (0, false)
  | some ts =>
      (cal_expr regs mem (ts.length + 1) ts 0 ((ts.length : Int) - 1)).map (fun v => (v, succ_in))

/-- Register resolver stub mapping no name (spec `RegisterResolver` with an
empty map). -/
def no_regs : String → Option Int := fun _ => none

/-- Memory reader stub returning 0 everywhere. -/
def memz : Int → Nat → Int := fun _ _ => 0

/-! ## Watchpoint registry (`watchpoint.c`)

The pool is `wp_pool[NR_WP]` plus the two sentinel dummies.  Nodes are
numbered `0 .. NR_WP-1` for the pool slots, `ACT = 32` for `head` (the
active-list sentinel, id `-1`) and `FRE = 33` for `free_` (the free-list
sentinel, id `-2`); the intrusive `next`/`prev` pointers become total
functions on node numbers, mutated with `Function.update` in exactly the
statement order of the C code. -/

/-- Capacity `NR_WP` of watchpoint.c. -/
def NR_WP : Nat := 32

/-- Node number of the `head` sentinel (`wp_dummy[0]`, id `-1`). -/
def ACT : Nat := 32

/-- Node number of the `free_` sentinel (`wp_dummy[1]`, id `-2`). -/
def FRE : Nat := 33

/-- State of the registry: the intrusive fields of all nodes.  `idf` is
the `id` field, `last_val`, `wexpr` and `counter` are the other members of
`struct watchpoint` (`wexpr` is the 100-byte `expr` buffer). -/
structure WpState where
  next : Nat → Nat
  prev : Nat → Nat
  idf : Nat → Int
  last_val : Nat → Int
  wexpr : Nat → String
  counter : Nat → Nat

/-- Function `init_wp_pool` of watchpoint.c, as the state it constructs:
slots chained in index order with `wp_pool[NR_WP-1].next`, `wp_pool[0].prev`
and the `free_` sentinel closing the free ring; the `head` ring is empty
(`head->next = head->prev = head`); slot ids equal their indices, the
sentinels carry `-1`/`-2`.  `last_val`/`wexpr`/`counter` are the
zero-initialised statics.  (Values at node numbers ≥ 34 do not correspond
to any C object and are never read.) -/
def init_wp_pool : WpState where
  next i := if i = FRE then 0 else if i = ACT then ACT else if i = NR_WP - 1 then FRE else i + 1
  prev i := if i = FRE then NR_WP - 1 else if i = ACT then ACT else if i = 0 then FRE else i - 1
  idf i := if i < NR_WP then (i : Int) else if i = ACT then -1 else -2
  last_val _ := 0
  wexpr _ := ""
  counter _ := 0

/-- Function `new_wp` of watchpoint.c.  `free_->next->id == -2` means the
free ring is empty and hits `assert(0)` (`.error ()`); otherwise the first
free node `res = free_->next` is unlinked from the free ring and linked at
the head of the active ring, with each `Function.update` mirroring one C
assignment in order, and `res->counter = 0`. -/
def new_wp (st : WpState) : Except Unit (Nat × WpState) :=
  if st.idf (st.next FRE) = -2 then .error ()
  else
    let res := st.next FRE
    let n1 := Function.update st.next FRE (st.next res)
    let p1 := Function.update st.prev (n1 FRE) FRE
    let p2 := Function.update p1 (n1 ACT) res
    let p3 := Function.update p2 res ACT
    let n2 := Function.update n1 res (n1 ACT)
    let n3 := Function.update n2 ACT res
    .ok (res, { st with next := n3, prev := p3, counter := Function.update st.counter res 0 })

/-- Function `free_wp` of watchpoint.c: returns `-1` for an out-of-range
id, otherwise unlinks slot `n` from whichever ring holds it, relinks it at
the head of the free ring (again one `Function.update` per C assignment,
reading each pointer at its current value), and returns `0`. -/
def free_wp (n : Int) (st : WpState) : Int × WpState :=
  if n < 0 ∨ (NR_WP : Int) ≤ n then (-1, st)
  else
    let w := n.toNat
    let n1 := Function.update st.next (st.prev w) (st.next w)
    let p1 := Function.update st.prev (n1 w) (st.prev w)
    let p2 := Function.update p1 (n1 FRE) w
    let p3 := Function.update p2 w FRE
    let n2 := Function.update n1 w (n1 FRE)
    let n3 := Function.update n2 FRE w
    (0, { st with next := n3, prev := p3 })

/-- Function `wp_watch` of watchpoint.c: allocate via `new_wp`, copy the
source text into the slot (`strcpy`; the 100-byte bound is not modelled —
no claim exercises it) and seed `last_val` with the pre-computed value. -/
def wp_watch (e : String) (v : Int) (st : WpState) : Except Unit (Nat × WpState) :=
  match new_wp st with
  | .error _ => .error ()
  | .ok (n, st') =>
      .ok (n, { st' with wexpr := Function.update st'.wexpr n e,
                         last_val := Function.update st'.last_val n v })

/-- Loop of `check_wp` (`while (cur->next->id != -1)`), walking `next`
pointers from the `head` sentinel.  A node checked for the first time
(`counter == 0`) only gets its counter bumped; otherwise its expression is
re-evaluated through `expr`.  The C code passes an uninitialised local
`bool success` whose value `expr` leaves untouched unless lexing fails;
that indeterminate initial value is modelled as `true`, so
`if (success == false) assert(0)` fires exactly on a lex failure.  A
reported change appends the printed entry `(id, old value, new value)`
and sets the result flag to 1; `cur->last_val = val` runs in both
branches.  Fuel bounds the walk; 33 dominates any valid ring. -/
def check_wp_aux (regs : String → Option Int) (mem : Int → Nat → Int) :
    Nat → Nat → WpState → Int → List (Int × Int × Int) →
    Except Unit (Int × List (Int × Int × Int) × WpState)
  | 0, _, _, _, _ => .error ()
  | fuel + 1, cur, st, res, ents =>
      if st.idf (st.next cur) = -1 then .ok (res, ents, st)
      else
        let c := st.next cur
        if st.counter c = 0 then
          check_wp_aux regs mem fuel c
            { st with counter := Function.update st.counter c (st.counter c + 1) } res ents
        else
          let st1 := { st with counter := Function.update st.counter c (st.counter c + 1) }
          match expr (st1.wexpr c) regs mem true with
          | .error _ => .error ()
          | .ok (v, succ) =>
              if succ = false then .error ()
              else if v ≠ st1.last_val c then
                check_wp_aux regs mem fuel c
                  { st1 with last_val := Function.update st1.last_val c v } 1
                  (ents ++ [(st1.idf c, st1.last_val c, v)])
              else
                check_wp_aux regs mem fuel c
                  { st1 with last_val := Function.update st1.last_val c v } res ents

/-- Function `check_wp` of watchpoint.c: result flag (0 = no change,
1 = some change), the list of printed change entries `(id, old, new)` in
visit order, and the updated state. -/
def check_wp (st : WpState) (regs : String → Option Int) (mem : Int → Nat → Int) :
    Except Unit (Int × List (Int × Int × Int) × WpState) :=
  check_wp_aux regs mem 33 ACT st 0 []

/-- Loop of `print_wp` (`while (cur->prev->id != -1)`), walking `prev`
pointers from the `head` sentinel and collecting the printed lines
`(id, expr text, last value)` in print order. -/
def print_wp_aux : Nat → Nat → WpState → List (Int × String × Int) → List (Int × String × Int)
  | 0, _, _, acc => acc
  | fuel + 1, cur, st, acc =>
      if st.idf (st.prev cur) = -1 then acc
      else
        let c := st.prev cur
        print_wp_aux fuel c st (acc ++ [(st.idf c, st.wexpr c, st.last_val c)])

/-- Function `print_wp` of watchpoint.c, as the list of lines it prints. -/
def print_wp (st : WpState) : List (Int × String × Int) :=
  print_wp_aux 33 ACT st []

/-- A registry call issued by the sdb shell: `w EXPR` (via `wp_watch`,
with the pre-evaluated seed value) or `d N` (via `free_wp`). -/
inductive WpOp where
  | create (e : String) (v : Int)
  | remove (n : Int)

/-- Run a sequence of registry calls from a starting state.  `.error ()`
propagates a `new_wp` pool-exhaustion abort; `free_wp` always returns
normally (its `-1` result for an out-of-range id is discarded here, as in
`cmd_d`). -/
def run_ops : List WpOp → WpState → Except Unit WpState
  | [], st => .ok st
  | WpOp.create e v :: rest, st =>
      match wp_watch e v st with
      | .error _ => .error ()
      | .ok (_, st') => run_ops rest st'
  | WpOp.remove n :: rest, st => run_ops rest (free_wp n st).2

/-- Repeated allocation: the ids assigned by `k` successive `new_wp`
calls (the `id` field of each allocated slot, as printed by `wp_watch`),
with the final state. -/
def new_ids : Nat → WpState → Except Unit (List Int × WpState)
  | 0, st => .ok ([], st)
  | k + 1, st =>
      match new_wp st with
      | .error _ => .error ()
      | .ok (n, st') =>
          match new_ids k st' with
          | .error _ => .error ()
          | .ok (ids, st'') => .ok (st'.idf n :: ids, st'')

/-! ## Ring structure and the registry invariant -/

/-- One doubly-linked ring link: `a.next` points at `b` and `b.prev` back
at `a`. -/
def ring_pred (nx pv : Nat → Nat) (a b : Nat) : Prop := nx a = b ∧ pv b = a

/-- Boolean check that consecutive elements of a node list are linked by
`ring_pred`. -/
def links_b (nx pv : Nat → Nat) : List Nat → Bool
  | a :: b :: rest => (nx a = b ∧ pv b = a : Bool) && links_b nx pv (b :: rest)
  | _ => true

/-- `sent :: l` is a circular doubly-linked ring: consecutive elements are
linked and the ring closes back at the sentinel. -/
def IsRing (nx pv : Nat → Nat) (sent : Nat) (l : List Nat) : Prop :=
  links_b nx pv (sent :: l ++ [sent]) = true

/-- The `id` fields are the ones `init_wp_pool` writes: slot index for the
pool slots, `-1`/`-2` for the sentinels. -/
def id_ok (st : WpState) : Prop :=
  ∀ k, k < 34 → st.idf k = (if k < 32 then (k : Int) else if k = 32 then -1 else -2)

/-- Registry invariant: the free and active rings are well-formed and
together carry every pool slot exactly once (§3 of the spec: the two lists
partition the slot array with no overlap and no omission), and the id
fields are intact. -/
def WpInv (st : WpState) : Prop :=
  id_ok st ∧
  ∃ fl al : List Nat,
    IsRing st.next st.prev FRE fl ∧ IsRing st.next st.prev ACT al ∧
    (fl ++ al).Perm (List.range 32)

deriving instance DecidableEq for Except

instance ring_pred_decidable (nx pv : Nat → Nat) : DecidableRel (ring_pred nx pv) :=
  fun a b => inferInstanceAs (Decidable (nx a = b ∧ pv b = a))

instance is_ring_decidable (nx pv : Nat → Nat) (sent : Nat) (l : List Nat) :
    Decidable (IsRing nx pv sent l) :=
  inferInstanceAs (Decidable (links_b nx pv (sent :: l ++ [sent]) = true))

instance id_ok_decidable (st : WpState) : Decidable (id_ok st) :=
  inferInstanceAs (Decidable (∀ k, k < 34 → st.idf k = _))

/-! ## Derived notions used to state the claims -/

/-- Unary/binary resolution soundness of one emitted token against the
kind of the previously emitted token (`none` = this is the first token):
a unary `+`/`-`/`*` reading may appear exactly when there is no previous
token or the previous token is not a completed operand, and a binary
reading exactly otherwise.  Token kinds that do not stem from the
ambiguous characters are unconstrained. -/
def amb_step (prev : Option TType) (t : TType) : Bool :=
  match t with
  | .TK_POS | .TK_NEG | .TK_DEREF =>
      match prev with
      | none => true
      | some p => !(is_operand p)
  | .TK_ADD | .TK_MINUS | .TK_MUL =>
      match prev with
      | none => false
      | some p => is_operand p
  | _ => true

/-- Check `amb_step` along a token list, threading the preceding token. -/
def amb_ok_aux (prev : Option TType) : List Token → Bool
  | [] => true
  | t :: rest => amb_step prev t.type && amb_ok_aux (some t.type) rest

/-- Every ambiguous `+`/`-`/`*` token of the list is resolved to unary
exactly when it is the first token or the token before it is not an
integer literal, register reference or close parenthesis. -/
def amb_ok (ts : List Token) : Bool := amb_ok_aux none ts

/-- Parenthesis contribution of a token kind to the running depth of
`find_major_operator`. -/
def paren_delta (t : TType) : Int :=
  if t = .TK_PAR_L then 1 else if t = .TK_PAR_R then -1 else 0

/-- Parenthesis depth in front of index `i` for a scan started at `b`. -/
def depth_at (ts : List Token) (b i : Int) : Int :=
  ((idx_list b i).map (fun k => paren_delta (tok_at ts k).type)).sum

/-- A token position `find_major_operator` considers at all (relative to a
scan started at `b`): not an integer literal, not a parenthesis, and at
parenthesis depth 0. -/
def EligAt (ts : List Token) (b k : Int) : Prop :=
  b ≤ k ∧ depth_at ts b k = 0 ∧
  (tok_at ts k).type ≠ .TK_INT ∧ (tok_at ts k).type ≠ .TK_PAR_L ∧
  (tok_at ts k).type ≠ .TK_PAR_R

/-- A small concrete registry state used to witness the watchpoint claims:
slot 0 is the only active watchpoint (ring `head -> 0 -> head`), watching
`"5"`, already primed (`counter = 1`) with stored value `3`; the remaining
slots keep their `init_wp_pool` links. -/
def wp_test_state : WpState :=
  { init_wp_pool with
    next := Function.update (Function.update init_wp_pool.next ACT 0) 0 ACT,
    prev := Function.update (Function.update init_wp_pool.prev ACT 0) 0 ACT,
    wexpr := Function.update init_wp_pool.wexpr 0 "5",
    counter := Function.update init_wp_pool.counter 0 1,
    last_val := Function.update init_wp_pool.last_val 0 3 }

/-! ## Theorems settling the claims -/

/-- Claim C1 (code bug): the fatal internal-invariant paths of evaluation
are reachable from input that passes the balance check.  The input
`"(1)+(2)"` lexes to seven tokens; the whole range `[0,6]` passes
`check_parentheses` (the counter never goes negative — the parentheses are
even fully balanced) and has length greater than 2.  `cal_expr` strips the
mismatched outer parentheses, and on the stripped range `[1,5]` the
paren-depth counter of `find_major_operator` goes negative at the `+`
token, hitting the `assert(0)` marked "Should never reach here": the whole
evaluation aborts (`.error ()`) instead of returning. -/
theorem claim_C1_assert_reachable :
    make_token "(1)+(2)" =
      some [⟨.TK_PAR_L, ""⟩, ⟨.TK_INT, "1"⟩, ⟨.TK_PAR_R, ""⟩, ⟨.TK_ADD, ""⟩,
            ⟨.TK_PAR_L, ""⟩, ⟨.TK_INT, "2"⟩, ⟨.TK_PAR_R, ""⟩] ∧
    check_parentheses
      [⟨.TK_PAR_L, ""⟩, ⟨.TK_INT, "1"⟩, ⟨.TK_PAR_R, ""⟩, ⟨.TK_ADD, ""⟩,
       ⟨.TK_PAR_L, ""⟩, ⟨.TK_INT, "2"⟩, ⟨.TK_PAR_R, ""⟩] 0 6 = true ∧
    find_major_operator
      [⟨.TK_PAR_L, ""⟩, ⟨.TK_INT, "1"⟩, ⟨.TK_PAR_R, ""⟩, ⟨.TK_ADD, ""⟩,
       ⟨.TK_PAR_L, ""⟩, ⟨.TK_INT, "2"⟩, ⟨.TK_PAR_R, ""⟩] 1 5 = .error () ∧
    expr "(1)+(2)" no_regs memz true = .error () :=
  ⟨rfl, rfl, rfl, rfl⟩

/-- Claim C2 (code bug): `evaluate_text("(1+2")` does not return
`ok=false`; it aborts.  The four tokens of `"(1+2"` pass
`check_parentheses` over `[0,3]` (the counter never goes negative; the
check does not require it to end at zero), no outer-paren strip applies,
and the general branch's `find_major_operator` scan skips every token
after the unmatched `(` as paren interior, returning `-1`, so
`assert(major_op_pos != -1)` in `cal_expr` aborts the process
(`.error ()`). -/
theorem claim_C2_assert_reachable :
    make_token "(1+2" =
      some [⟨.TK_PAR_L, ""⟩, ⟨.TK_INT, "1"⟩, ⟨.TK_ADD, ""⟩, ⟨.TK_INT, "2"⟩] ∧
    check_parentheses
      [⟨.TK_PAR_L, ""⟩, ⟨.TK_INT, "1"⟩, ⟨.TK_ADD, ""⟩, ⟨.TK_INT, "2"⟩] 0 3 = true ∧
    find_major_operator
      [⟨.TK_PAR_L, ""⟩, ⟨.TK_INT, "1"⟩, ⟨.TK_ADD, ""⟩, ⟨.TK_INT, "2"⟩] 0 3 = .ok (-1) ∧
    expr "(1+2" no_regs memz true = .error () :=
  ⟨rfl, rfl, rfl, rfl⟩

/-- Claim C4, counterexample: `evaluate_text("2>=3")` does not return
value 0 with `ok=true`; it fails lexing (the `">"` rule precedes the
`">="` rule in the table and first-match-wins strands the `=`), so the
success flag is set to `false`. -/
theorem claim_C4_counterexample :
    expr "2>=3" no_regs memz true = .ok (0, false) ∧
    expr "2>=3" no_regs memz true ≠ .ok (0, true) :=
  ⟨rfl, by decide⟩

/-- Claim C4 (amended): `evaluate_text("5==5") = 1` and
`evaluate_text("1<2") = 1` with `ok=true` (relational results are 1/0),
but `evaluate_text("2>=3")` fails to lex with `ok=false`, because the
`"<"`/`">"` rules precede `"<="`/`">="` in the declared table and the
first rule matching at offset 0 wins, leaving a stranded `=` that matches
no rule. -/
theorem claim_C4_amended :
    expr "5==5" no_regs memz true = .ok (1, true) ∧
    expr "1<2" no_regs memz true = .ok (1, true) ∧
    expr "2>=3" no_regs memz true = .ok (0, false) :=
  ⟨rfl, rfl, rfl⟩

/-- Claim C6, counterexample: evaluating `"$x"` with a resolver that maps
no register does not yield `ok=false`.  The C code prints a diagnostic and
returns 0 from `cal_expr` without ever writing the success flag, so the
caller sees value 0 with the flag still holding its incoming value
(`true` here). -/
theorem claim_C6_counterexample :
    expr "$x" no_regs memz true = .ok (0, true) ∧
    expr "$x" no_regs memz true ≠ .ok (0, false) :=
  ⟨rfl, by decide⟩

/-- Claim C8, counterexample: after the 32 successful allocations (ids
`0..31`), the 33rd `new_wp` does not return a recoverable failure — it
hits `assert(0)` and terminates the process (modelled `.error ()`). -/
theorem claim_C8_counterexample :
    (new_ids 32 init_wp_pool).map Prod.fst = .ok ((List.range 32).map Int.ofNat) ∧
    new_ids 33 init_wp_pool = .error () :=
  ⟨rfl, rfl⟩

/-- Claim C8 (amended): from the freshly initialised pool, 32 successive
creations succeed and are assigned the stable ids 0 through 31 in order;
a 33rd creation aborts the process via `assert(0)` in `new_wp` (a fatal
abort, not a recoverable error return); and for every id `k`, removing
`k` from the full registry (return value 0) makes the next creation take
slot `k` again and report the same id `k`. -/
theorem claim_C8_amended :
    (new_ids 32 init_wp_pool).map Prod.fst = .ok ((List.range 32).map Int.ofNat) ∧
    new_ids 33 init_wp_pool = .error () ∧
    ∀ k : Fin 32,
      ((new_ids 32 init_wp_pool).bind fun p =>
        (new_wp (free_wp ((k : Nat) : Int) p.2).2).map fun q =>
          ((free_wp ((k : Nat) : Int) p.2).1, q.2.idf q.1))
      = .ok (0, ((k : Nat) : Int)) :=
  ⟨rfl, rfl, by decide⟩

/-- Claim C10, counterexample: after creating watchpoint 0 (text "1") and
then watchpoint 1 (text "2"), `print_wp` lists id 0 first — creation
order, not reverse-creation order as claimed. -/
theorem claim_C10_counterexample :
    (run_ops [.create "1" 1, .create "2" 2] init_wp_pool).map print_wp =
      .ok [(0, "1", 1), (1, "2", 2)] ∧
    (run_ops [.create "1" 1, .create "2" 2] init_wp_pool).map print_wp ≠
      .ok [(1, "2", 2), (0, "1", 1)] :=
  ⟨rfl, by decide⟩

theorem amb_ok_aux_append (l : List Token) (p : Option TType) (t : Token) :
    amb_ok_aux p (l ++ [t]) =
      (amb_ok_aux p l && amb_step ((l.getLast?).elim p (fun x => some x.type)) t.type) := by
  induction l generalizing p with
  | nil => simp [amb_ok_aux]
  | cons a rest ih =>
      have hgl : ((a :: rest).getLast?.elim p (fun x => some x.type)) =
          (rest.getLast?.elim (some a.type) (fun x => some x.type)) := by
        cases rest with
        | nil => rfl
        | cons b r2 =>
            rw [List.getLast?_cons_cons]
            cases h2 : (b :: r2).getLast? with
            | none => exact absurd (List.getLast?_eq_none_iff.mp h2) (by simp)
            | some x => rfl
      simp only [List.cons_append, amb_ok_aux, hgl, Bool.and_assoc]
      exact congrArg (fun z => amb_step p a.type && z) (ih (some a.type))

theorem first_rule_match_mem :
    ∀ (rs : List ((List Char → Option Nat) × TType)) (cs : List Char) (t : TType) (len : Nat),
      first_rule_match rs cs = some (t, len) → t ∈ rs.map Prod.snd := by
  intro rs
  induction rs with
  | nil => intro cs t len h; exact Option.noConfusion h
  | cons r rest ih =>
      intro cs t len h
      have hstep : first_rule_match (r :: rest) cs =
          (match r.1 cs with
           | some len => some (r.2, len)
           | none => first_rule_match rest cs) := rfl
      rw [hstep] at h
      cases hm : r.1 cs with
      | none =>
          rw [hm] at h
          exact List.mem_cons_of_mem _ (ih cs t len h)
      | some l2 =>
          rw [hm] at h
          simp only [Option.some.injEq, Prod.mk.injEq] at h
          rw [List.map_cons]
          exact h.1 ▸ List.mem_cons_self _ _

theorem emit_token_amb (acc : List Token) (t : TType) (text : String)
    (ht : t ∈ rules.map Prod.snd) (h : amb_ok acc = true) :
    amb_ok (emit_token acc t text) = true := by
  have hlast : ∀ (tok : Token),
      amb_step ((acc.getLast?).elim none (fun x => some x.type)) tok.type = true →
      amb_ok (acc ++ [tok]) = true := by
    intro tok hs
    unfold amb_ok at h ⊢
    rw [amb_ok_aux_append, h, hs]
    rfl
  have ht' : t ∈ [TType.TK_NOTYPE, .DUMMY_1, .DUMMY_2, .DUMMY_3, .TK_DIV, .TK_BOOL_EQ,
      .TK_INT, .TK_PAR_L, .TK_PAR_R, .TK_REG, .TK_BOOL_LT, .TK_BOOL_GT, .TK_BOOL_LE,
      .TK_BOOL_GE] := ht
  simp only [List.mem_cons, List.not_mem_nil, or_false] at ht'
  rcases ht' with rfl | rfl | rfl | rfl | rfl | rfl | rfl | rfl | rfl | rfl | rfl | rfl | rfl | rfl
  · exact h
  · show amb_ok (if acc.length = 0 ∨
        is_operand ((acc.getLast?.getD ⟨.TK_NOTYPE, ""⟩).type) = false
      then acc ++ [⟨.TK_POS, ""⟩] else acc ++ [⟨.TK_ADD, ""⟩]) = true
    by_cases hcnd : acc.length = 0 ∨
        is_operand ((acc.getLast?.getD ⟨.TK_NOTYPE, ""⟩).type) = false
    · rw [if_pos hcnd]
      refine hlast _ ?_
      cases hacc : acc.getLast? with
      | none => rfl
      | some x =>
          have hxop : is_operand x.type = false := by
            rcases hcnd with h0 | hop
            · rw [List.length_eq_zero.mp h0] at hacc; exact Option.noConfusion hacc
            · rw [hacc] at hop; exact hop
          show amb_step (some x.type) TType.TK_POS = true
          simp [amb_step, hxop]
    · rw [if_neg hcnd]
      refine hlast _ ?_
      push_neg at hcnd
      cases hacc : acc.getLast? with
      | none =>
          rw [List.getLast?_eq_none_iff.mp hacc] at hcnd
          exact absurd rfl hcnd.1
      | some x =>
          have hxop : is_operand x.type = true := by
            have h2 := hcnd.2
            rw [hacc] at h2
            simpa using h2
          show amb_step (some x.type) TType.TK_ADD = true
          simp [amb_step, hxop]
  · show amb_ok (if acc.length = 0 ∨
        is_operand ((acc.getLast?.getD ⟨.TK_NOTYPE, ""⟩).type) = false
      then acc ++ [⟨.TK_NEG, ""⟩] else acc ++ [⟨.TK_MINUS, ""⟩]) = true
    by_cases hcnd : acc.length = 0 ∨
        is_operand ((acc.getLast?.getD ⟨.TK_NOTYPE, ""⟩).type) = false
    · rw [if_pos hcnd]
      refine hlast _ ?_
      cases hacc : acc.getLast? with
      | none => rfl
      | some x =>
          have hxop : is_operand x.type = false := by
            rcases hcnd with h0 | hop
            · rw [List.length_eq_zero.mp h0] at hacc; exact Option.noConfusion hacc
            · rw [hacc] at hop; exact hop
          show amb_step (some x.type) TType.TK_NEG = true
          simp [amb_step, hxop]
    · rw [if_neg hcnd]
      refine hlast _ ?_
      push_neg at hcnd
      cases hacc : acc.getLast? with
      | none =>
          rw [List.getLast?_eq_none_iff.mp hacc] at hcnd
          exact absurd rfl hcnd.1
      | some x =>
          have hxop : is_operand x.type = true := by
            have h2 := hcnd.2
            rw [hacc] at h2
            simpa using h2
          show amb_step (some x.type) TType.TK_MINUS = true
          simp [amb_step, hxop]
  · show amb_ok (if acc.length = 0 ∨
        is_operand ((acc.getLast?.getD ⟨.TK_NOTYPE, ""⟩).type) = false
      then acc ++ [⟨.TK_DEREF, ""⟩] else acc ++ [⟨.TK_MUL, ""⟩]) = true
    by_cases hcnd : acc.length = 0 ∨
        is_operand ((acc.getLast?.getD ⟨.TK_NOTYPE, ""⟩).type) = false
    · rw [if_pos hcnd]
      refine hlast _ ?_
      cases hacc : acc.getLast? with
      | none => rfl
      | some x =>
          have hxop : is_operand x.type = false := by
            rcases hcnd with h0 | hop
            · rw [List.length_eq_zero.mp h0] at hacc; exact Option.noConfusion hacc
            · rw [hacc] at hop; exact hop
          show amb_step (some x.type) TType.TK_DEREF = true
          simp [amb_step, hxop]
    · rw [if_neg hcnd]
      refine hlast _ ?_
      push_neg at hcnd
      cases hacc : acc.getLast? with
      | none =>
          rw [List.getLast?_eq_none_iff.mp hacc] at hcnd
          exact absurd rfl hcnd.1
      | some x =>
          have hxop : is_operand x.type = true := by
            have h2 := hcnd.2
            rw [hacc] at h2
            simpa using h2
          show amb_step (some x.type) TType.TK_MUL = true
          simp [amb_step, hxop]
  · exact hlast _ rfl
  · exact hlast _ rfl
  · exact hlast _ rfl
  · exact hlast _ rfl
  · exact hlast _ rfl
  · exact hlast _ rfl
  · exact hlast _ rfl
  · exact hlast _ rfl
  · exact hlast _ rfl
  · exact hlast _ rfl

theorem make_token_aux_amb :
    ∀ (fuel : Nat) (cs : List Char) (acc : List Token), amb_ok acc = true →
      ∀ ts, make_token_aux fuel cs acc = some ts → amb_ok ts = true := by
  intro fuel
  induction fuel with
  | zero =>
      intro cs acc hacc ts h
      cases cs with
      | nil => exact (Option.some.inj h) ▸ hacc
      | cons c cs' => exact Option.noConfusion h
  | succ fuel ih =>
      intro cs acc hacc ts h
      cases cs with
      | nil => exact (Option.some.inj h) ▸ hacc
      | cons c cs' =>
          have hstep : make_token_aux (fuel + 1) (c :: cs') acc =
              (match first_rule_match rules (c :: cs') with
               | none => none
               | some (t, len) =>
                   make_token_aux fuel ((c :: cs').drop len)
                     (emit_token acc t (String.mk ((c :: cs').take len)))) := rfl
          rw [hstep] at h
          cases hm : first_rule_match rules (c :: cs') with
          | none => rw [hm] at h; exact Option.noConfusion h
          | some tl =>
              obtain ⟨t, len⟩ := tl
              rw [hm] at h
              exact ih _ _
                (emit_token_amb acc t _ (first_rule_match_mem rules _ t len hm) hacc) ts h

/-- Claim C5: a `+`, `-` or `*` character is tokenized as the unary
`TK_POS`/`TK_NEG`/`TK_DEREF` exactly when it is the first emitted token or
the immediately preceding emitted token is not an integer literal,
register reference, or close parenthesis, and as the binary
`TK_ADD`/`TK_MINUS`/`TK_MUL` otherwise (`amb_ok` checks exactly this
biconditional along the emitted token sequence); consequently
`evaluate_text("-3+4") = 1`, `evaluate_text("3-4") = -1` and
`evaluate_text("3*-4") = -12`. -/
theorem claim_C5_unary_binary :
    (∀ (s : String) (ts : List Token), make_token s = some ts → amb_ok ts = true) ∧
    expr "-3+4" no_regs memz true = .ok (1, true) ∧
    expr "3-4" no_regs memz true = .ok (-1, true) ∧
    expr "3*-4" no_regs memz true = .ok (-12, true) := by
  refine ⟨?_, rfl, rfl, rfl⟩
  intro s ts h
  exact make_token_aux_amb _ _ [] rfl ts h

/-- Witness for claim C5 at the concrete input `"3*-4"`: its token
sequence satisfies the unary/binary resolution invariant. -/
theorem claim_C5_witness :
    amb_ok [⟨.TK_INT, "3"⟩, ⟨.TK_MUL, ""⟩, ⟨.TK_NEG, ""⟩, ⟨.TK_INT, "4"⟩] = true :=
  claim_C5_unary_binary.1 "3*-4" _ rfl

/-- Claim C6 (amended): `expr` sets the success flag to `false` exactly
when lexing fails; every other failure (including an unresolvable register
name) prints a diagnostic and returns value 0 while leaving the flag at
the caller's incoming value — the flag is never actively set to `true`.
Stated for an incoming flag value of `true`: the returned flag is `false`
if and only if `make_token` failed. -/
theorem claim_C6_amended (s : String) (regs : String → Option Int) (mem : Int → Nat → Int)
    (v : Int) (f : Bool) (h : expr s regs mem true = .ok (v, f)) :
    f = false ↔ make_token s = none := by
  simp only [expr] at h
  cases hmk : make_token s with
  | none =>
      rw [hmk] at h
      dsimp only at h
      simp only [Except.ok.injEq, Prod.mk.injEq] at h
      simp [hmk, ← h.2]
  | some ts =>
      rw [hmk] at h
      dsimp only at h
      cases hc : cal_expr regs mem (ts.length + 1) ts 0 ((ts.length : Int) - 1) with
      | error e => rw [hc] at h; simp [Except.map] at h
      | ok w =>
          rw [hc] at h
          simp only [Except.map, Except.ok.injEq, Prod.mk.injEq] at h
          simp [hmk, ← h.2]

/-- Witness for claim C6 (amended) at the concrete input `"$x"` with the
empty register resolver: the call returns with flag `true` and indeed
lexing did not fail. -/
theorem claim_C6_amended_witness :
    (true = false ↔ make_token "$x" = none) :=
  claim_C6_amended "$x" no_regs memz 0 true rfl

theorem idx_list_append_right (b i : Int) (h : b ≤ i) :
    idx_list b (i + 1) = idx_list b i ++ [i] := by
  unfold idx_list
  have h1 : (i + 1 - b).toNat = (i - b).toNat + 1 := by omega
  rw [h1, List.range_succ, List.map_append]
  refine congrArg₂ (· ++ ·) rfl ?_
  simp only [List.map_cons, List.map_nil]
  refine congrArg₂ List.cons ?_ rfl
  omega

theorem idx_list_cons (i e : Int) (h : i < e) :
    idx_list i e = i :: idx_list (i + 1) e := by
  unfold idx_list
  have h1 : (e - i).toNat = (e - (i + 1)).toNat + 1 := by omega
  rw [h1, List.range_succ_eq_map, List.map_cons, List.map_map]
  refine congrArg₂ List.cons (by simp) ?_
  apply List.map_congr_left
  intro a _
  simp only [Function.comp_apply]
  push_cast
  ring

theorem depth_at_self (ts : List Token) (b : Int) : depth_at ts b b = 0 := by
  simp [depth_at, idx_list]

theorem depth_at_succ (ts : List Token) (b i : Int) (h : b ≤ i) :
    depth_at ts b (i + 1) = depth_at ts b i + paren_delta (tok_at ts i).type := by
  unfold depth_at
  rw [idx_list_append_right b i h, List.map_append, List.sum_append]
  simp

theorem elig_extend (ts : List Token) (b i : Int) (hni : ¬ EligAt ts b i)
    (P : Int → Int → Prop)
    (h : ∀ k pk, EligAt ts b k → k < i → get_priority (tok_at ts k).type = some pk → P k pk) :
    ∀ k pk, EligAt ts b k → k < i + 1 → get_priority (tok_at ts k).type = some pk → P k pk := by
  intro k pk he hk hp
  rcases lt_or_eq_of_le (Int.lt_add_one_iff.mp hk) with h1 | h1
  · exact h k pk he h1 hp
  · subst h1; exact absurd he hni

theorem find_major_aux_cons (ts : List Token) (i : Int) (rest : List Int) (d m maj : Int) :
    find_major_aux ts (i :: rest) (d, m, maj) =
      (if (tok_at ts i).type = .TK_INT then find_major_aux ts rest (d, m, maj)
       else if (tok_at ts i).type = .TK_PAR_L then find_major_aux ts rest (d + 1, m, maj)
       else if (tok_at ts i).type = .TK_PAR_R then find_major_aux ts rest (d - 1, m, maj)
       else if 0 < d then find_major_aux ts rest (d, m, maj)
       else if d < 0 then .error ()
       else
         match get_priority (tok_at ts i).type with
         | none => .error ()
         | some p =>
             if p ≤ m then find_major_aux ts rest (d, p, i)
             else find_major_aux ts rest (d, m, maj)) := by
  cases h : (tok_at ts i).type <;> simp [find_major_aux, h, get_priority]

theorem find_major_aux_spec (ts : List Token) (b e : Int) :
    ∀ (n : Nat) (i d m maj j : Int),
      (e - i).toNat = n → b ≤ i → d = depth_at ts b i →
      ((maj = -1 ∧ m = 2 ∧
        ∀ k pk, EligAt ts b k → k < i → get_priority (tok_at ts k).type = some pk → 2 < pk)
       ∨ (EligAt ts b maj ∧ maj < i ∧ maj < e ∧
          get_priority (tok_at ts maj).type = some m ∧ m ≤ 2 ∧
          ∀ k pk, EligAt ts b k → k < i → get_priority (tok_at ts k).type = some pk →
            m ≤ pk ∧ (maj < k → m < pk))) →
      find_major_aux ts (idx_list i e) (d, m, maj) = .ok j → j ≠ -1 →
      (EligAt ts b j ∧ j < e ∧
       ∃ pj, get_priority (tok_at ts j).type = some pj ∧ pj ≤ 2 ∧
         ∀ k pk, EligAt ts b k → k < e → get_priority (tok_at ts k).type = some pk →
           pj ≤ pk ∧ (j < k → pj < pk)) := by
  intro n
  induction n with
  | zero =>
      intro i d m maj j hn hbi hd hinv hrun hj
      have hei : e ≤ i := by omega
      have hnil : idx_list i e = [] := by
        unfold idx_list
        rw [hn]
        rfl
      rw [hnil] at hrun
      have hmj : maj = j := Except.ok.inj hrun
      subst hmj
      rcases hinv with ⟨h1, _, _⟩ | ⟨he, hlt, hlte, hpm, hm2, hall⟩
      · exact absurd h1 hj
      · refine ⟨he, hlte, m, hpm, hm2, ?_⟩
        intro k pk hek hke hpk
        have hki : k < i := by omega
        exact hall k pk hek hki hpk
  | succ n ihn =>
      intro i d m maj j hn hbi hd hinv hrun hj
      have hie : i < e := by omega
      rw [idx_list_cons i e hie, find_major_aux_cons] at hrun
      have hn' : (e - (i + 1)).toNat = n := by omega
      have hbi' : b ≤ i + 1 := by omega
      by_cases hInt : (tok_at ts i).type = .TK_INT
      · rw [if_pos hInt] at hrun
        have hd' : d = depth_at ts b (i + 1) := by
          rw [depth_at_succ ts b i hbi, ← hd, hInt]
          simp [paren_delta]
        have hni : ¬ EligAt ts b i := fun hE => hE.2.2.1 hInt
        refine ihn (i + 1) d m maj j hn' hbi' hd' ?_ hrun hj
        rcases hinv with ⟨hmaj, hm, hall⟩ | ⟨he, hlt, hlte, hpm, hm2, hall⟩
        · exact Or.inl ⟨hmaj, hm, elig_extend ts b i hni _ hall⟩
        · exact Or.inr ⟨he, by omega, hlte, hpm, hm2, elig_extend ts b i hni _ hall⟩
      · rw [if_neg hInt] at hrun
        by_cases hL : (tok_at ts i).type = .TK_PAR_L
        · rw [if_pos hL] at hrun
          have hd' : d + 1 = depth_at ts b (i + 1) := by
            rw [depth_at_succ ts b i hbi, ← hd, hL]
            simp [paren_delta]
          have hni : ¬ EligAt ts b i := fun hE => hE.2.2.2.1 hL
          refine ihn (i + 1) (d + 1) m maj j hn' hbi' hd' ?_ hrun hj
          rcases hinv with ⟨hmaj, hm, hall⟩ | ⟨he, hlt, hlte, hpm, hm2, hall⟩
          · exact Or.inl ⟨hmaj, hm, elig_extend ts b i hni _ hall⟩
          · exact Or.inr ⟨he, by omega, hlte, hpm, hm2, elig_extend ts b i hni _ hall⟩
        · rw [if_neg hL] at hrun
          by_cases hR : (tok_at ts i).type = .TK_PAR_R
          · rw [if_pos hR] at hrun
            have hd' : d - 1 = depth_at ts b (i + 1) := by
              rw [depth_at_succ ts b i hbi, ← hd, hR,
                show paren_delta .TK_PAR_R = -1 from rfl]
              omega
            have hni : ¬ EligAt ts b i := fun hE => hE.2.2.2.2 hR
            refine ihn (i + 1) (d - 1) m maj j hn' hbi' hd' ?_ hrun hj
            rcases hinv with ⟨hmaj, hm, hall⟩ | ⟨he, hlt, hlte, hpm, hm2, hall⟩
            · exact Or.inl ⟨hmaj, hm, elig_extend ts b i hni _ hall⟩
            · exact Or.inr ⟨he, by omega, hlte, hpm, hm2, elig_extend ts b i hni _ hall⟩
          · rw [if_neg hR] at hrun
            have hd' : d = depth_at ts b (i + 1) := by
              rw [depth_at_succ ts b i hbi, ← hd]
              simp [paren_delta, hL, hR]
            by_cases hdp : 0 < d
            · rw [if_pos hdp] at hrun
              have hni : ¬ EligAt ts b i := by
                intro hE
                have h0 := hE.2.1
                omega
              refine ihn (i + 1) d m maj j hn' hbi' hd' ?_ hrun hj
              rcases hinv with ⟨hmaj, hm, hall⟩ | ⟨he, hlt, hlte, hpm, hm2, hall⟩
              · exact Or.inl ⟨hmaj, hm, elig_extend ts b i hni _ hall⟩
              · exact Or.inr ⟨he, by omega, hlte, hpm, hm2, elig_extend ts b i hni _ hall⟩
            · rw [if_neg hdp] at hrun
              by_cases hdn : d < 0
              · rw [if_pos hdn] at hrun
                exact Except.noConfusion hrun
              · rw [if_neg hdn] at hrun
                have hd0 : d = 0 := by omega
                have helig : EligAt ts b i := ⟨hbi, by rw [← hd, hd0], hInt, hL, hR⟩
                cases hp : get_priority (tok_at ts i).type with
                | none => rw [hp] at hrun; exact Except.noConfusion hrun
                | some p =>
                    rw [hp] at hrun
                    dsimp only at hrun
                    by_cases hpm2 : p ≤ m
                    · rw [if_pos hpm2] at hrun
                      refine ihn (i + 1) d p i j hn' hbi' hd' ?_ hrun hj
                      refine Or.inr ⟨helig, by omega, hie, hp, ?_, ?_⟩
                      · rcases hinv with ⟨_, hm, _⟩ | ⟨_, _, _, _, hm2, _⟩
                        · omega
                        · omega
                      · intro k pk hek hki hpk
                        rcases lt_or_eq_of_le (Int.lt_add_one_iff.mp hki) with h1 | h1
                        · rcases hinv with ⟨_, hm, hall⟩ | ⟨_, _, _, _, _, hall⟩
                          · have h2 := hall k pk hek h1 hpk
                            exact ⟨by omega, fun _ => by omega⟩
                          · have h2 := hall k pk hek h1 hpk
                            exact ⟨by omega, fun hik => by omega⟩
                        · subst h1
                          rw [hp] at hpk
                          have hpkp : p = pk := Option.some.inj hpk
                          exact ⟨by omega, fun hik => absurd hik (by omega)⟩
                    · rw [if_neg hpm2] at hrun
                      refine ihn (i + 1) d m maj j hn' hbi' hd' ?_ hrun hj
                      rcases hinv with ⟨hmaj, hm, hall⟩ | ⟨he, hlt, hlte, hpm, hm2, hall⟩
                      · refine Or.inl ⟨hmaj, hm, ?_⟩
                        intro k pk hek hki hpk
                        rcases lt_or_eq_of_le (Int.lt_add_one_iff.mp hki) with h1 | h1
                        · exact hall k pk hek h1 hpk
                        · subst h1
                          rw [hp] at hpk
                          have hpkp : p = pk := Option.some.inj hpk
                          omega
                      · refine Or.inr ⟨he, by omega, hlte, hpm, hm2, ?_⟩
                        intro k pk hek hki hpk
                        rcases lt_or_eq_of_le (Int.lt_add_one_iff.mp hki) with h1 | h1
                        · exact hall k pk hek h1 hpk
                        · subst h1
                          rw [hp] at hpk
                          have hpkp : p = pk := Option.some.inj hpk
                          exact ⟨by omega, fun _ => by omega⟩

/-- Claim C3: whenever `find_major_operator` locates a split operator
(returns a position other than `-1`), that position is an eligible token
(at paren depth 0, not an integer literal or parenthesis) carrying an
operator priority at most 2 — so unary operators (priority 3) are never
chosen — and it is minimal-rightmost: every eligible operator position in
the scanned range has priority at least as large, strictly larger to its
right.  Consequently `evaluate_text("1+2*3") = 7` and
`evaluate_text("10-2-3") = 5`. -/
theorem claim_C3_major_operator :
    (∀ (ts : List Token) (b e j : Int), find_major_operator ts b e = .ok j → j ≠ -1 →
      (EligAt ts b j ∧ j < e ∧
       ∃ pj, get_priority (tok_at ts j).type = some pj ∧ pj ≤ 2 ∧
         ∀ k pk, EligAt ts b k → k < e → get_priority (tok_at ts k).type = some pk →
           pj ≤ pk ∧ (j < k → pj < pk))) ∧
    expr "1+2*3" no_regs memz true = .ok (7, true) ∧
    expr "10-2-3" no_regs memz true = .ok (5, true) := by
  refine ⟨?_, rfl, rfl⟩
  intro ts b e j hrun hj
  refine find_major_aux_spec ts b e (e - b).toNat b 0 2 (-1) j rfl le_rfl
    (depth_at_self ts b).symm ?_ hrun hj
  exact Or.inl ⟨rfl, rfl, fun k pk hek hkb hpk => absurd hkb (not_lt.mpr hek.1)⟩

/-- Witness for claim C3 at the token sequence of `"1+2*3"` over the range
`[0, 4]`: the split position 1 (the `+`) satisfies the minimal-rightmost
characterization. -/
theorem claim_C3_witness :
    EligAt [⟨.TK_INT, "1"⟩, ⟨.TK_ADD, ""⟩, ⟨.TK_INT, "2"⟩, ⟨.TK_MUL, ""⟩, ⟨.TK_INT, "3"⟩] 0 1 ∧
    (1 : Int) < 4 ∧
    (∃ pj, get_priority (tok_at [⟨.TK_INT, "1"⟩, ⟨.TK_ADD, ""⟩, ⟨.TK_INT, "2"⟩,
        ⟨.TK_MUL, ""⟩, ⟨.TK_INT, "3"⟩] 1).type = some pj ∧ pj ≤ 2 ∧
      ∀ k pk, EligAt [⟨.TK_INT, "1"⟩, ⟨.TK_ADD, ""⟩, ⟨.TK_INT, "2"⟩,
          ⟨.TK_MUL, ""⟩, ⟨.TK_INT, "3"⟩] 0 k → k < 4 →
        get_priority (tok_at [⟨.TK_INT, "1"⟩, ⟨.TK_ADD, ""⟩, ⟨.TK_INT, "2"⟩,
          ⟨.TK_MUL, ""⟩, ⟨.TK_INT, "3"⟩] k).type = some pk →
        pj ≤ pk ∧ (1 < k → pj < pk)) :=
  claim_C3_major_operator.1
    [⟨.TK_INT, "1"⟩, ⟨.TK_ADD, ""⟩, ⟨.TK_INT, "2"⟩, ⟨.TK_MUL, ""⟩, ⟨.TK_INT, "3"⟩]
    0 4 1 rfl (by decide)

theorem links_b_iff (nx pv : Nat → Nat) :
    ∀ l : List Nat, links_b nx pv l = true ↔ List.Chain' (ring_pred nx pv) l
  | [] => by simp [links_b]
  | [a] => by simp [links_b]
  | a :: b :: rest => by
      have : links_b nx pv (a :: b :: rest) =
          ((nx a = b ∧ pv b = a : Bool) && links_b nx pv (b :: rest)) := rfl
      rw [this, Bool.and_eq_true, links_b_iff nx pv (b :: rest), List.chain'_cons]
      simp [ring_pred]

theorem isRing_iff (nx pv : Nat → Nat) (sent : Nat) (l : List Nat) :
    IsRing nx pv sent l ↔ List.Chain' (ring_pred nx pv) (sent :: l ++ [sent]) :=
  links_b_iff nx pv (sent :: l ++ [sent])

theorem chain'_congr_adj {R S : Nat → Nat → Prop} :
    ∀ l : List Nat,
      (∀ a ∈ l.dropLast, ∀ c ∈ l.tail, R a c → S a c) →
      List.Chain' R l → List.Chain' S l := by
  intro l
  induction l with
  | nil => intro _ _; exact List.chain'_nil
  | cons a t ih =>
      intro hcong hch
      cases t with
      | nil => exact List.chain'_singleton a
      | cons b t2 =>
          rw [List.chain'_cons] at hch ⊢
          refine ⟨hcong a ?_ b ?_ hch.1, ih ?_ hch.2⟩
          · simp
          · simp
          · intro x hx c hc hr
            refine hcong x ?_ c ?_ hr
            · simp only [List.dropLast_cons₂, List.mem_cons]
              right
              exact hx
            · exact List.mem_cons_of_mem _ hc

theorem chain'_congr_ring (nx pv nx' pv' : Nat → Nat) (l : List Nat)
    (h : ∀ a ∈ l, nx' a = nx a ∧ pv' a = pv a) :
    List.Chain' (ring_pred nx pv) l → List.Chain' (ring_pred nx' pv') l := by
  refine chain'_congr_adj l ?_
  intro a ha c hc hr
  have ha' : a ∈ l := List.dropLast_subset l ha
  have hc' : c ∈ l := List.tail_subset l hc
  exact ⟨(h a ha').1.trans hr.1, (h c hc').2.trans hr.2⟩

theorem isRing_congr (nx pv nx' pv' : Nat → Nat) (sent : Nat) (l : List Nat)
    (h : ∀ a ∈ sent :: l, nx' a = nx a ∧ pv' a = pv a) :
    IsRing nx pv sent l → IsRing nx' pv' sent l := by
  rw [isRing_iff, isRing_iff]
  refine chain'_congr_ring nx pv nx' pv' _ ?_
  intro a ha
  refine h a ?_
  rcases List.mem_cons.mp ha with h1 | h1
  · exact h1 ▸ List.mem_cons_self _ _
  · rcases List.mem_append.mp h1 with h2 | h2
    · exact List.mem_cons_of_mem _ h2
    · rw [List.mem_singleton.mp h2]
      exact List.mem_cons_self _ _

theorem ring_unlink (nx pv : Nat → Nat) (sent n : Nat) (l : List Nat)
    (hr : List.Chain' (ring_pred nx pv) (sent :: l ++ [sent]))
    (hnd : (sent :: l).Nodup) (hn : n ∈ l) :
    nx (pv n) = n ∧ pv (nx n) = n ∧ pv n ∈ sent :: l ∧ nx n ∈ sent :: l ∧
    List.Chain' (ring_pred (Function.update nx (pv n) (nx n))
      (Function.update pv (nx n) (pv n))) (sent :: l.erase n ++ [sent]) := by
  obtain ⟨u, v, rfl⟩ := List.append_of_mem hn
  have hndl : (u ++ n :: v).Nodup := (List.nodup_cons.mp hnd).2
  have hsl : sent ∉ u ++ n :: v := (List.nodup_cons.mp hnd).1
  have hnu : n ∉ u := by
    have h3 := List.nodup_append.mp hndl
    exact fun hmem => h3.2.2 hmem (List.mem_cons_self _ _)
  have hnv : n ∉ v := by
    have h3 := List.nodup_append.mp hndl
    exact (List.nodup_cons.mp h3.2.1).1
  have hns : n ≠ sent := fun h => hsl (h ▸ hn)
  have hnsu : n ∉ sent :: u := by
    intro h
    rcases List.mem_cons.mp h with h1 | h1
    · exact hns h1
    · exact hnu h1
  have hnvs : n ∉ v ++ [sent] := by
    intro h
    rcases List.mem_append.mp h with h1 | h1
    · exact hnv h1
    · exact hns (List.mem_singleton.mp h1)
  have hers : (u ++ n :: v).erase n = u ++ v := by
    rw [List.erase_append_right _ hnu, List.erase_cons_head]
  have hre : sent :: (u ++ n :: v) ++ [sent] = (sent :: u) ++ n :: (v ++ [sent]) := by simp
  rw [hre, List.chain'_split] at hr
  obtain ⟨h1, h2⟩ := hr
  rw [List.chain'_append] at h1
  obtain ⟨h1a, -, h1c⟩ := h1
  rw [List.chain'_cons'] at h2
  obtain ⟨h2a, h2b⟩ := h2
  have hwne : (sent :: u) ≠ [] := List.cons_ne_nil _ _
  have hzne : (v ++ [sent]) ≠ [] := by simp
  have hlink1 : ring_pred nx pv ((sent :: u).getLast hwne) n := by
    refine h1c _ ?_ n ?_
    · rw [List.getLast?_eq_getLast _ hwne]; rfl
    · rfl
  have hlink2 : ring_pred nx pv n ((v ++ [sent]).head hzne) := by
    refine h2a _ ?_
    rw [List.head?_eq_head hzne]; rfl
  have hpvn : pv n = (sent :: u).getLast hwne := hlink1.2
  have hnxn : nx n = (v ++ [sent]).head hzne := hlink2.1
  have hc1 : nx (pv n) = n := by rw [hpvn]; exact hlink1.1
  have hc2 : pv (nx n) = n := by rw [hnxn]; exact hlink2.2
  have hwmem : pv n ∈ sent :: u := hpvn ▸ List.getLast_mem hwne
  have hzmem0 : nx n ∈ v ++ [sent] := hnxn ▸ List.head_mem hzne
  have hwmem' : pv n ∈ sent :: (u ++ n :: v) := by
    rcases List.mem_cons.mp hwmem with h | h
    · exact h ▸ List.mem_cons_self _ _
    · exact List.mem_cons_of_mem _ (List.mem_append_left _ h)
  have hzmem' : nx n ∈ sent :: (u ++ n :: v) := by
    rcases List.mem_append.mp hzmem0 with h | h
    · exact List.mem_cons_of_mem _ (List.mem_append_right _ (List.mem_cons_of_mem _ h))
    · rw [List.mem_singleton.mp h]
      exact List.mem_cons_self _ _
  refine ⟨hc1, hc2, hwmem', hzmem', ?_⟩
  rw [hers]
  have hre2 : sent :: (u ++ v) ++ [sent] = (sent :: u) ++ (v ++ [sent]) := by simp
  rw [hre2, List.chain'_append]
  refine ⟨?_, ?_, ?_⟩
  · refine chain'_congr_adj (sent :: u) ?_ h1a
    intro a ha c hc hrr
    have ha' : a ∈ sent :: u := List.dropLast_subset _ ha
    have hc' : c ∈ List.tail (sent :: u) := hc
    constructor
    · rw [Function.update_noteq ?_]
      · exact hrr.1
      · intro hape
        apply hnsu
        have hcn : c = n := by rw [← hrr.1, hape, hc1]
        exact List.mem_cons_of_mem _ (hcn ▸ hc')
    · rw [Function.update_noteq ?_]
      · exact hrr.2
      · intro hcz
        apply hnsu
        have han : a = n := by rw [← hrr.2, hcz, hc2]
        exact han ▸ ha'
  · refine chain'_congr_adj (v ++ [sent]) ?_ h2b
    intro a ha c hc hrr
    have ha' : a ∈ v ++ [sent] := List.dropLast_subset _ ha
    have hc' : c ∈ v ++ [sent] := List.tail_subset _ hc
    constructor
    · rw [Function.update_noteq ?_]
      · exact hrr.1
      · intro hape
        apply hnvs
        have hcn : c = n := by rw [← hrr.1, hape, hc1]
        exact hcn ▸ hc'
    · rw [Function.update_noteq ?_]
      · exact hrr.2
      · intro hcz
        apply hnvs
        have han : a = n := by rw [← hrr.2, hcz, hc2]
        exact han ▸ ha'
  · intro x hx y hy
    rw [List.getLast?_eq_getLast _ hwne] at hx
    rw [List.head?_eq_head hzne] at hy
    have hx' : x = pv n := by rw [hpvn]; exact (Option.mem_some_iff.mp hx).symm
    have hy' : y = nx n := by rw [hnxn]; exact (Option.mem_some_iff.mp hy).symm
    subst hx'
    subst hy'
    exact ⟨Function.update_same _ _ _, Function.update_same _ _ _⟩

theorem ring_push (nx pv : Nat → Nat) (sent n : Nat) (l : List Nat)
    (hr : List.Chain' (ring_pred nx pv) (sent :: l ++ [sent]))
    (hns : n ≠ sent) (hnl : n ∉ l) (hsl : sent ∉ l) :
    List.Chain' (ring_pred (Function.update (Function.update nx n (nx sent)) sent n)
      (Function.update (Function.update pv (nx sent) n) n sent))
      (sent :: (n :: l) ++ [sent]) := by
  have hzne : (l ++ [sent]) ≠ [] := by simp
  have hnls : n ∉ l ++ [sent] := by
    intro h
    rcases List.mem_append.mp h with h1 | h1
    · exact hnl h1
    · exact hns (List.mem_singleton.mp h1)
  have hre1 : sent :: l ++ [sent] = sent :: (l ++ [sent]) := by simp
  rw [hre1, List.chain'_cons'] at hr
  obtain ⟨hhd, htl⟩ := hr
  have hlink : ring_pred nx pv sent ((l ++ [sent]).head hzne) := by
    refine hhd _ ?_
    rw [List.head?_eq_head hzne]; rfl
  have hnxs : nx sent = (l ++ [sent]).head hzne := hlink.1
  have hpvz : pv (nx sent) = sent := by rw [hnxs]; exact hlink.2
  have hre2 : sent :: (n :: l) ++ [sent] = sent :: n :: (l ++ [sent]) := by simp
  rw [hre2, List.chain'_cons, List.chain'_cons']
  refine ⟨⟨Function.update_same _ _ _, Function.update_same _ _ _⟩, ?_, ?_⟩
  · intro y hy
    rw [List.head?_eq_head hzne] at hy
    have hy' : y = nx sent := by rw [hnxs]; exact (Option.mem_some_iff.mp hy).symm
    subst hy'
    constructor
    · rw [Function.update_noteq hns, Function.update_same]
    · rw [Function.update_noteq ?_, Function.update_same]
      intro h
      exact hnls (h ▸ (hnxs ▸ List.head_mem hzne))
  · refine chain'_congr_adj (l ++ [sent]) ?_ htl
    intro a ha c hc hrr
    have ha' : a ∈ l := by
      rw [List.dropLast_concat] at ha
      exact ha
    have hc' : c ∈ l ++ [sent] := List.tail_subset _ hc
    constructor
    · rw [Function.update_noteq ?_, Function.update_noteq ?_]
      · exact hrr.1
      · intro h; exact hnl (h ▸ ha')
      · intro h; exact hsl (h ▸ ha')
    · rw [Function.update_noteq ?_, Function.update_noteq ?_]
      · exact hrr.2
      · intro h
        apply hsl
        have han : a = sent := by rw [← hrr.2, h, hpvz]
        exact han ▸ ha'
      · intro h; exact hnls (h ▸ hc')

theorem ring_head (nx pv : Nat → Nat) (sent x : Nat) (xs : List Nat)
    (hr : IsRing nx pv sent (x :: xs)) : nx sent = x ∧ pv x = sent := by
  have h := (isRing_iff nx pv sent (x :: xs)).mp hr
  have hre : sent :: (x :: xs) ++ [sent] = sent :: x :: (xs ++ [sent]) := by simp
  rw [hre, List.chain'_cons] at h
  exact h.1

theorem ring_next_sent_mem (nx pv : Nat → Nat) (sent : Nat) (l : List Nat)
    (hr : IsRing nx pv sent l) : nx sent ∈ sent :: l := by
  cases l with
  | nil =>
      have h := (isRing_iff nx pv sent []).mp hr
      rw [show sent :: ([] : List Nat) ++ [sent] = [sent, sent] by simp, List.chain'_cons] at h
      rw [h.1.1]
      exact List.mem_cons_self _ _
  | cons x xs =>
      rw [(ring_head nx pv sent x xs hr).1]
      exact List.mem_cons_of_mem _ (List.mem_cons_self _ _)

theorem wp_facts (fl al : List Nat) (hperm : (fl ++ al).Perm (List.range 32)) :
    (FRE :: fl).Nodup ∧ (ACT :: al).Nodup ∧ (∀ x ∈ fl, x < 32) ∧ (∀ x ∈ al, x < 32) ∧
    (∀ x, x ∈ fl → x ∈ al → False) := by
  have hnd : (fl ++ al).Nodup := hperm.nodup_iff.mpr (List.nodup_range 32)
  have hmem : ∀ x ∈ fl ++ al, x < 32 := by
    intro x hx
    exact List.mem_range.mp (hperm.mem_iff.mp hx)
  have hflb : ∀ x ∈ fl, x < 32 := fun x hx => hmem x (List.mem_append_left _ hx)
  have halb : ∀ x ∈ al, x < 32 := fun x hx => hmem x (List.mem_append_right _ hx)
  have hna := List.nodup_append.mp hnd
  refine ⟨?_, ?_, hflb, halb, fun x hx1 hx2 => hna.2.2 hx1 hx2⟩
  · rw [List.nodup_cons]
    refine ⟨fun h => ?_, hna.1⟩
    have h1 := hflb _ h
    have h2 : (FRE : Nat) = 33 := rfl
    omega
  · rw [List.nodup_cons]
    refine ⟨fun h => ?_, hna.2.1⟩
    have h1 := halb _ h
    have h2 : (ACT : Nat) = 32 := rfl
    omega

theorem new_wp_spec (st : WpState) (f : Nat) (fs al : List Nat)
    (hids : id_ok st)
    (hfr : IsRing st.next st.prev FRE (f :: fs)) (har : IsRing st.next st.prev ACT al)
    (hperm : ((f :: fs) ++ al).Perm (List.range 32)) :
    new_wp st = .ok (f,
      { st with
        next := Function.update (Function.update (Function.update st.next FRE (st.next f))
          f (st.next ACT)) ACT f,
        prev := Function.update (Function.update (Function.update st.prev (st.next f) FRE)
          (st.next ACT) f) f ACT,
        counter := Function.update st.counter f 0 }) ∧
    IsRing (Function.update (Function.update (Function.update st.next FRE (st.next f))
        f (st.next ACT)) ACT f)
      (Function.update (Function.update (Function.update st.prev (st.next f) FRE)
        (st.next ACT) f) f ACT) FRE fs ∧
    IsRing (Function.update (Function.update (Function.update st.next FRE (st.next f))
        f (st.next ACT)) ACT f)
      (Function.update (Function.update (Function.update st.prev (st.next f) FRE)
        (st.next ACT) f) f ACT) ACT (f :: al) ∧
    (fs ++ (f :: al)).Perm (List.range 32) := by
  obtain ⟨hndf, hnda, hflb, halb, hdisj⟩ := wp_facts (f :: fs) al hperm
  have hve : (FRE : Nat) = 33 := rfl
  have hva : (ACT : Nat) = 32 := rfl
  have hf32 : f < 32 := hflb f (List.mem_cons_self _ _)
  have hAF : (ACT : Nat) ≠ FRE := by omega
  have hfACT : f ≠ ACT := by omega
  have hfFRE : f ≠ FRE := by omega
  have hfnal : f ∉ al := fun h => hdisj f (List.mem_cons_self _ _) h
  have hACTnal : (ACT : Nat) ∉ al := fun h => by have := halb _ h; omega
  have hFREnfs : (FRE : Nat) ∉ fs :=
    fun h => by have := hflb _ (List.mem_cons_of_mem _ h); omega
  have hfnfs : f ∉ fs := (List.nodup_cons.mp (List.nodup_cons.mp hndf).2).1
  obtain ⟨hres, hpf⟩ := ring_head st.next st.prev FRE f fs hfr
  -- guard does not fire: the head of the free list is a pool slot, id ≥ 0
  have hguard : ¬ (st.idf (st.next FRE) = -2) := by
    rw [hres, hids f (by omega)]
    simp only [hf32, if_pos]
    omega
  -- step 1: unlink f from the free ring
  have hunl := ring_unlink st.next st.prev FRE f (f :: fs)
    ((isRing_iff _ _ _ _).mp hfr) hndf (List.mem_cons_self _ _)
  have hnfmem : st.next f ∈ FRE :: (f :: fs) := hunl.2.2.2.1
  have hnf_cases : st.next f = FRE ∨ st.next f ∈ f :: fs := List.mem_cons.mp hnfmem
  have hnf_notACT : st.next f ≠ ACT := by
    rcases hnf_cases with h | h
    · omega
    · have := hflb _ h; omega
  have hnf_notal : ∀ a, a ∈ al → a ≠ st.next f := by
    intro a ha hEq
    rcases hnf_cases with h | h
    · have := halb _ ha; omega
    · exact hdisj _ h (hEq ▸ ha)
  have hnACTmem : st.next ACT ∈ ACT :: al := ring_next_sent_mem _ _ _ _ har
  have hnACT_cases : st.next ACT = ACT ∨ st.next ACT ∈ al := List.mem_cons.mp hnACTmem
  have hnACT_notFRE : st.next ACT ≠ FRE := by
    rcases hnACT_cases with h | h
    · omega
    · have := halb _ h; omega
  have hnACT_notfs : ∀ a, a ∈ fs → a ≠ st.next ACT := by
    intro a ha hEq
    rcases hnACT_cases with h | h
    · have := hflb _ (List.mem_cons_of_mem _ ha); omega
    · exact hdisj _ (List.mem_cons_of_mem _ ha) (hEq ▸ h)
  have hA : List.Chain' (ring_pred (Function.update st.next FRE (st.next f))
      (Function.update st.prev (st.next f) FRE)) (FRE :: fs ++ [FRE]) := by
    have h := hunl.2.2.2.2
    rw [hpf, List.erase_cons_head] at h
    exact h
  -- the active ring is untouched by the unlink updates
  have hB : IsRing (Function.update st.next FRE (st.next f))
      (Function.update st.prev (st.next f) FRE) ACT al := by
    refine isRing_congr st.next st.prev _ _ ACT al ?_ har
    intro a ha
    have ha32 : a = ACT ∨ a ∈ al := List.mem_cons.mp ha
    constructor
    · refine Function.update_noteq ?_ _ _
      rcases ha32 with h | h
      · omega
      · have := halb _ h; omega
    · refine Function.update_noteq ?_ _ _
      rcases ha32 with h | h
      · exact h ▸ (fun hEq => hnf_notACT hEq.symm)
      · exact hnf_notal a h
  -- step 2: push f onto the head of the active ring
  have hpush := ring_push (Function.update st.next FRE (st.next f))
    (Function.update st.prev (st.next f) FRE) ACT f al
    ((isRing_iff _ _ _ _).mp hB) hfACT hfnal hACTnal
  have hn1ACT : (Function.update st.next FRE (st.next f)) ACT = st.next ACT :=
    Function.update_noteq hAF _ _
  rw [hn1ACT] at hpush
  -- the free ring is untouched by the push updates
  have hD : IsRing
      (Function.update (Function.update (Function.update st.next FRE (st.next f))
        f (st.next ACT)) ACT f)
      (Function.update (Function.update (Function.update st.prev (st.next f) FRE)
        (st.next ACT) f) f ACT) FRE fs := by
    refine isRing_congr _ _ _ _ FRE fs ?_ ((isRing_iff _ _ _ _).mpr hA)
    intro a ha
    have ha' : a = FRE ∨ a ∈ fs := List.mem_cons.mp ha
    constructor
    · rw [Function.update_noteq ?_, Function.update_noteq ?_]
      · rcases ha' with h | h
        · omega
        · exact fun hEq => hfnfs (hEq ▸ h)
      · rcases ha' with h | h
        · omega
        · have := hflb _ (List.mem_cons_of_mem _ h); omega
    · rw [Function.update_noteq ?_, Function.update_noteq ?_]
      · rcases ha' with h | h
        · exact h ▸ (fun hEq => hnACT_notFRE hEq.symm)
        · exact hnACT_notfs a h
      · rcases ha' with h | h
        · omega
        · exact fun hEq => hfnfs (hEq ▸ h)
  refine ⟨?_, hD, (isRing_iff _ _ _ _).mpr hpush, ?_⟩
  · unfold new_wp
    rw [if_neg hguard]
    simp only [hres, Function.update_same, Function.update_noteq hAF]
  · exact List.Perm.trans List.perm_middle hperm

theorem free_wp_spec_active (st : WpState) (w : Nat) (fl al : List Nat)
    (hfr : IsRing st.next st.prev FRE fl) (har : IsRing st.next st.prev ACT al)
    (hperm : (fl ++ al).Perm (List.range 32)) (hw : w ∈ al) :
    free_wp (w : Int) st = (0,
      { st with
        next := Function.update (Function.update
          (Function.update st.next (st.prev w) (st.next w)) w
          ((Function.update st.next (st.prev w) (st.next w)) FRE)) FRE w,
        prev := Function.update (Function.update
          (Function.update st.prev (st.next w) (st.prev w))
          ((Function.update st.next (st.prev w) (st.next w)) FRE) w) w FRE }) ∧
    IsRing (Function.update (Function.update
        (Function.update st.next (st.prev w) (st.next w)) w
        ((Function.update st.next (st.prev w) (st.next w)) FRE)) FRE w)
      (Function.update (Function.update
        (Function.update st.prev (st.next w) (st.prev w))
        ((Function.update st.next (st.prev w) (st.next w)) FRE) w) w FRE)
      FRE (w :: fl) ∧
    IsRing (Function.update (Function.update
        (Function.update st.next (st.prev w) (st.next w)) w
        ((Function.update st.next (st.prev w) (st.next w)) FRE)) FRE w)
      (Function.update (Function.update
        (Function.update st.prev (st.next w) (st.prev w))
        ((Function.update st.next (st.prev w) (st.next w)) FRE) w) w FRE)
      ACT (al.erase w) ∧
    ((w :: fl) ++ al.erase w).Perm (List.range 32) := by
  obtain ⟨hndf, hnda, hflb, halb, hdisj⟩ := wp_facts fl al hperm
  have hve : (FRE : Nat) = 33 := rfl
  have hva : (ACT : Nat) = 32 := rfl
  have hnr : NR_WP = 32 := rfl
  have hw32 : w < 32 := halb w hw
  have hwnfl : w ∉ fl := fun h => hdisj w h hw
  have hFREnfl : (FRE : Nat) ∉ fl := fun h => by have := hflb _ h; omega
  have hwal_sub : al.erase w ⊆ al := List.erase_subset w al
  have hwnerase : w ∉ al.erase w :=
    fun h => ((List.nodup_cons.mp hnda).2.mem_erase_iff.mp h).1 rfl
  have hact_not_free : ∀ x, x ∈ ACT :: al → ∀ a, a ∈ FRE :: fl → a ≠ x := by
    intro x hx a ha hEq
    subst hEq
    rcases List.mem_cons.mp hx with h1 | h1 <;> rcases List.mem_cons.mp ha with h2 | h2
    · omega
    · have := hflb _ h2; omega
    · have := halb _ h1; omega
    · exact hdisj a h2 h1
  have hunl := ring_unlink st.next st.prev ACT w al ((isRing_iff _ _ _ _).mp har)
    hnda hw
  have hpvw_mem : st.prev w ∈ ACT :: al := hunl.2.2.1
  have hnxw_mem : st.next w ∈ ACT :: al := hunl.2.2.2.1
  have hA : IsRing (Function.update st.next (st.prev w) (st.next w))
      (Function.update st.prev (st.next w) (st.prev w)) ACT (al.erase w) :=
    (isRing_iff _ _ _ _).mpr hunl.2.2.2.2
  have hB : IsRing (Function.update st.next (st.prev w) (st.next w))
      (Function.update st.prev (st.next w) (st.prev w)) FRE fl := by
    refine isRing_congr st.next st.prev _ _ FRE fl ?_ hfr
    intro a ha
    exact ⟨Function.update_noteq (hact_not_free _ hpvw_mem a ha) _ _,
      Function.update_noteq (hact_not_free _ hnxw_mem a ha) _ _⟩
  have hwFRE : w ≠ FRE := by omega
  have hpush := ring_push (Function.update st.next (st.prev w) (st.next w))
    (Function.update st.prev (st.next w) (st.prev w)) FRE w fl
    ((isRing_iff _ _ _ _).mp hB) hwFRE hwnfl hFREnfl
  have hn1FRE : (Function.update st.next (st.prev w) (st.next w)) FRE = st.next FRE :=
    Function.update_noteq (hact_not_free _ hpvw_mem FRE (List.mem_cons_self _ _)) _ _
  have hnFRE_mem : st.next FRE ∈ FRE :: fl := ring_next_sent_mem _ _ _ _ hfr
  have hC : IsRing (Function.update (Function.update
        (Function.update st.next (st.prev w) (st.next w)) w
        ((Function.update st.next (st.prev w) (st.next w)) FRE)) FRE w)
      (Function.update (Function.update
        (Function.update st.prev (st.next w) (st.prev w))
        ((Function.update st.next (st.prev w) (st.next w)) FRE) w) w FRE)
      ACT (al.erase w) := by
    refine isRing_congr _ _ _ _ ACT (al.erase w) ?_ hA
    intro a ha
    have ha' : a ∈ ACT :: al := by
      rcases List.mem_cons.mp ha with h1 | h1
      · exact h1 ▸ List.mem_cons_self _ _
      · exact List.mem_cons_of_mem _ (hwal_sub h1)
    have haw : a ≠ w := by
      rcases List.mem_cons.mp ha with h1 | h1
      · rw [h1]; omega
      · exact fun hEq => hwnerase (hEq ▸ h1)
    have haFRE : a ≠ FRE := (hact_not_free a ha' FRE (List.mem_cons_self _ _)).symm
    have han1 : a ≠ (Function.update st.next (st.prev w) (st.next w)) FRE := by
      rw [hn1FRE]
      exact (hact_not_free a ha' _ hnFRE_mem).symm
    constructor
    · rw [Function.update_noteq haFRE, Function.update_noteq haw]
    · rw [Function.update_noteq haw, Function.update_noteq han1]
  refine ⟨?_, (isRing_iff _ _ _ _).mpr hpush, hC, ?_⟩
  · have hrange : ¬ ((w : Int) < 0 ∨ (NR_WP : Int) ≤ (w : Int)) := by omega
    have hn1w : Function.update st.next (st.prev w) (st.next w) w = st.next w := by
      simp [Function.update_apply]
    unfold free_wp
    rw [if_neg hrange]
    simp only [Int.toNat_natCast, hn1w]
  · have hal : al.Perm (w :: al.erase w) := List.perm_cons_erase hw
    have h1 : ((w :: fl) ++ al.erase w).Perm (fl ++ (w :: al.erase w)) :=
      List.perm_middle.symm
    have h2 : (fl ++ (w :: al.erase w)).Perm (fl ++ al) :=
      List.Perm.append_left fl hal.symm
    exact (h1.trans h2).trans hperm

theorem free_wp_spec_free (st : WpState) (w : Nat) (fl al : List Nat)
    (hfr : IsRing st.next st.prev FRE fl) (har : IsRing st.next st.prev ACT al)
    (hperm : (fl ++ al).Perm (List.range 32)) (hw : w ∈ fl) :
    free_wp (w : Int) st = (0,
      { st with
        next := Function.update (Function.update
          (Function.update st.next (st.prev w) (st.next w)) w
          ((Function.update st.next (st.prev w) (st.next w)) FRE)) FRE w,
        prev := Function.update (Function.update
          (Function.update st.prev (st.next w) (st.prev w))
          ((Function.update st.next (st.prev w) (st.next w)) FRE) w) w FRE }) ∧
    IsRing (Function.update (Function.update
        (Function.update st.next (st.prev w) (st.next w)) w
        ((Function.update st.next (st.prev w) (st.next w)) FRE)) FRE w)
      (Function.update (Function.update
        (Function.update st.prev (st.next w) (st.prev w))
        ((Function.update st.next (st.prev w) (st.next w)) FRE) w) w FRE)
      FRE (w :: fl.erase w) ∧
    IsRing (Function.update (Function.update
        (Function.update st.next (st.prev w) (st.next w)) w
        ((Function.update st.next (st.prev w) (st.next w)) FRE)) FRE w)
      (Function.update (Function.update
        (Function.update st.prev (st.next w) (st.prev w))
        ((Function.update st.next (st.prev w) (st.next w)) FRE) w) w FRE)
      ACT al ∧
    ((w :: fl.erase w) ++ al).Perm (List.range 32) := by
  obtain ⟨hndf, hnda, hflb, halb, hdisj⟩ := wp_facts fl al hperm
  have hve : (FRE : Nat) = 33 := rfl
  have hva : (ACT : Nat) = 32 := rfl
  have hnr : NR_WP = 32 := rfl
  have hw32 : w < 32 := hflb w hw
  have hwnal : w ∉ al := fun h => hdisj w hw h
  have hfl_sub : fl.erase w ⊆ fl := List.erase_subset w fl
  have hFREnfl : (FRE : Nat) ∉ fl := fun h => by have := hflb _ h; omega
  have hFREnerase : (FRE : Nat) ∉ fl.erase w := fun h => hFREnfl (hfl_sub h)
  have hwnerase : w ∉ fl.erase w :=
    fun h => ((List.nodup_cons.mp hndf).2.mem_erase_iff.mp h).1 rfl
  have hfree_not_act : ∀ x, x ∈ FRE :: fl → ∀ a, a ∈ ACT :: al → a ≠ x := by
    intro x hx a ha hEq
    subst hEq
    rcases List.mem_cons.mp hx with h1 | h1 <;> rcases List.mem_cons.mp ha with h2 | h2
    · omega
    · have := halb _ h2; omega
    · have := hflb _ h1; omega
    · exact hdisj a h1 h2
  have hunl := ring_unlink st.next st.prev FRE w fl ((isRing_iff _ _ _ _).mp hfr)
    hndf hw
  have hpvw_mem : st.prev w ∈ FRE :: fl := hunl.2.2.1
  have hnxw_mem : st.next w ∈ FRE :: fl := hunl.2.2.2.1
  have hA : IsRing (Function.update st.next (st.prev w) (st.next w))
      (Function.update st.prev (st.next w) (st.prev w)) FRE (fl.erase w) :=
    (isRing_iff _ _ _ _).mpr hunl.2.2.2.2
  have hB : IsRing (Function.update st.next (st.prev w) (st.next w))
      (Function.update st.prev (st.next w) (st.prev w)) ACT al := by
    refine isRing_congr st.next st.prev _ _ ACT al ?_ har
    intro a ha
    exact ⟨Function.update_noteq (hfree_not_act _ hpvw_mem a ha) _ _,
      Function.update_noteq (hfree_not_act _ hnxw_mem a ha) _ _⟩
  have hwFRE : w ≠ FRE := by omega
  have hpush := ring_push (Function.update st.next (st.prev w) (st.next w))
    (Function.update st.prev (st.next w) (st.prev w)) FRE w (fl.erase w)
    ((isRing_iff _ _ _ _).mp hA) hwFRE hwnerase hFREnerase
  have hn1FRE_mem : (Function.update st.next (st.prev w) (st.next w)) FRE ∈ FRE :: fl := by
    rw [Function.update_apply]
    split
    · exact hnxw_mem
    · exact ring_next_sent_mem _ _ _ _ hfr
  have hC : IsRing (Function.update (Function.update
        (Function.update st.next (st.prev w) (st.next w)) w
        ((Function.update st.next (st.prev w) (st.next w)) FRE)) FRE w)
      (Function.update (Function.update
        (Function.update st.prev (st.next w) (st.prev w))
        ((Function.update st.next (st.prev w) (st.next w)) FRE) w) w FRE)
      ACT al := by
    refine isRing_congr _ _ _ _ ACT al ?_ hB
    intro a ha
    have haw : a ≠ w := by
      rcases List.mem_cons.mp ha with h1 | h1
      · rw [h1]; omega
      · exact fun hEq => hwnal (hEq ▸ h1)
    have haFRE : a ≠ FRE := by
      rcases List.mem_cons.mp ha with h1 | h1
      · rw [h1]; omega
      · have := halb _ h1; omega
    have han1 : a ≠ (Function.update st.next (st.prev w) (st.next w)) FRE :=
      (hfree_not_act _ hn1FRE_mem a ha).symm.symm
    constructor
    · rw [Function.update_noteq haFRE, Function.update_noteq haw]
    · rw [Function.update_noteq haw, Function.update_noteq han1]
  refine ⟨?_, (isRing_iff _ _ _ _).mpr hpush, hC, ?_⟩
  · have hrange : ¬ ((w : Int) < 0 ∨ (NR_WP : Int) ≤ (w : Int)) := by omega
    have hn1w : Function.update st.next (st.prev w) (st.next w) w = st.next w := by
      simp [Function.update_apply]
    unfold free_wp
    rw [if_neg hrange]
    simp only [Int.toNat_natCast, hn1w]
  · have hflp : (w :: fl.erase w).Perm fl := (List.perm_cons_erase hw).symm
    exact (hflp.append_right al).trans hperm

theorem new_wp_exhausted (st : WpState) (hids : id_ok st)
    (hfr : IsRing st.next st.prev FRE []) : new_wp st = .error () := by
  have h := (isRing_iff _ _ _ _).mp hfr
  rw [show FRE :: ([] : List Nat) ++ [FRE] = [FRE, FRE] by simp, List.chain'_cons] at h
  have hnx : st.next FRE = FRE := h.1.1
  unfold new_wp
  rw [hnx, hids FRE (by decide)]
  rw [if_pos (by decide)]

theorem free_wp_out_of_range (st : WpState) (n : Int)
    (h : n < 0 ∨ (NR_WP : Int) ≤ n) : free_wp n st = (-1, st) := by
  unfold free_wp
  rw [if_pos h]

theorem wp_watch_spec (st : WpState) (e : String) (v : Int) (f : Nat) (fs al : List Nat)
    (hids : id_ok st)
    (hfr : IsRing st.next st.prev FRE (f :: fs)) (har : IsRing st.next st.prev ACT al)
    (hperm : ((f :: fs) ++ al).Perm (List.range 32)) :
    ∃ st', wp_watch e v st = .ok (f, st') ∧
      IsRing st'.next st'.prev FRE fs ∧ IsRing st'.next st'.prev ACT (f :: al) ∧
      (fs ++ (f :: al)).Perm (List.range 32) ∧
      st'.idf = st.idf ∧ st'.next = Function.update (Function.update
        (Function.update st.next FRE (st.next f)) f (st.next ACT)) ACT f ∧
      st'.counter f = 0 ∧ st'.wexpr f = e ∧ st'.last_val f = v := by
  obtain ⟨hstep, hring1, hring2, hperm'⟩ := new_wp_spec st f fs al hids hfr har hperm
  refine ⟨{ next := Function.update (Function.update (Function.update st.next FRE (st.next f)) f (st.next ACT)) ACT f, prev := Function.update (Function.update (Function.update st.prev (st.next f) FRE) (st.next ACT) f) f ACT, idf := st.idf, last_val := Function.update st.last_val f v, wexpr := Function.update st.wexpr f e, counter := Function.update st.counter f 0 }, ?_, hring1, hring2, hperm', rfl, rfl, ?_, ?_, ?_⟩
  · unfold wp_watch
    rw [hstep]
  · exact Function.update_same _ _ _
  · exact Function.update_same _ _ _
  · exact Function.update_same _ _ _

theorem wp_watch_wpinv (st : WpState) (e : String) (v : Int) (r : Nat) (st' : WpState)
    (hinv : WpInv st) (h : wp_watch e v st = .ok (r, st')) : WpInv st' := by
  obtain ⟨hids, fl, al, hfr, har, hperm⟩ := hinv
  cases fl with
  | nil =>
      rw [show wp_watch e v st = .error () from by
        unfold wp_watch
        rw [new_wp_exhausted st hids hfr]] at h
      exact Except.noConfusion h
  | cons f fs =>
      obtain ⟨st2, hstep, hr1, hr2, hperm', hid, -, -, -, -⟩ :=
        wp_watch_spec st e v f fs al hids hfr har hperm
      rw [hstep] at h
      have hst : st2 = st' := (Prod.mk.injEq _ _ _ _).mp (Except.ok.inj h) |>.2
      subst hst
      refine ⟨?_, fs, f :: al, hr1, hr2, hperm'⟩
      intro k hk
      rw [hid]
      exact hids k hk

theorem free_wp_wpinv (st : WpState) (n : Int) (hinv : WpInv st) :
    WpInv (free_wp n st).2 := by
  obtain ⟨hids, fl, al, hfr, har, hperm⟩ := hinv
  by_cases hrange : n < 0 ∨ (NR_WP : Int) ≤ n
  · rw [free_wp_out_of_range st n hrange]
    exact ⟨hids, fl, al, hfr, har, hperm⟩
  · have hnr : (NR_WP : Nat) = 32 := rfl
    have hn0 : 0 ≤ n := by omega
    have hn32 : n < 32 := by omega
    have hcast : n = ((n.toNat : Nat) : Int) := (Int.toNat_of_nonneg hn0).symm
    set w := n.toNat with hwdef
    have hw32 : w < 32 := by omega
    have hwmem : w ∈ fl ++ al := by
      refine hperm.mem_iff.mpr ?_
      exact List.mem_range.mpr hw32
    rcases List.mem_append.mp hwmem with hwf | hwa
    · obtain ⟨hstep, hr1, hr2, hperm'⟩ := free_wp_spec_free st w fl al hfr har hperm hwf
      rw [hcast, hstep]
      exact ⟨hids, w :: fl.erase w, al, hr1, hr2, hperm'⟩
    · obtain ⟨hstep, hr1, hr2, hperm'⟩ := free_wp_spec_active st w fl al hfr har hperm hwa
      rw [hcast, hstep]
      exact ⟨hids, w :: fl, al.erase w, hr1, hr2, hperm'⟩

theorem run_ops_wpinv : ∀ (ops : List WpOp) (st st' : WpState), WpInv st →
    run_ops ops st = .ok st' → WpInv st' := by
  intro ops
  induction ops with
  | nil =>
      intro st st' hinv h
      exact (Except.ok.inj h) ▸ hinv
  | cons op rest ih =>
      intro st st' hinv h
      cases op with
      | create e v =>
          rw [show run_ops (WpOp.create e v :: rest) st =
            (match wp_watch e v st with
             | .error _ => .error ()
             | .ok (_, st1) => run_ops rest st1) from rfl] at h
          cases hw : wp_watch e v st with
          | error u => rw [hw] at h; exact Except.noConfusion h
          | ok p =>
              rw [hw] at h
              exact ih p.2 st' (wp_watch_wpinv st e v p.1 p.2 hinv (by rw [hw])) h
      | remove n =>
          rw [show run_ops (WpOp.remove n :: rest) st =
            run_ops rest (free_wp n st).2 from rfl] at h
          exact ih _ st' (free_wp_wpinv st n hinv) h

theorem init_wp_pool_wpinv : WpInv init_wp_pool :=
  ⟨by decide, List.range 32, [], by decide, by decide, by simp⟩

/-- C7: every slot belongs to exactly one of the free and active rings.  After
initialization and after any sequence of `wp_watch` (create) and `free_wp`
(remove) calls that returns successfully, the two sentinel-headed circular
doubly-linked rings remain structurally valid and partition the 32-slot pool
with no overlap and no omission (`WpInv`); moreover `free_wp` on any id in the
valid range 0..31 — including a slot that is already free — returns 0. -/
theorem claim_C7_partition :
    (∀ (ops : List WpOp) (st' : WpState),
        run_ops ops init_wp_pool = Except.ok st' → WpInv st') ∧
    (∀ (st : WpState) (n : Int), 0 ≤ n → n < (NR_WP : Int) → (free_wp n st).1 = 0) := by
  constructor
  · intro ops st' h
    exact run_ops_wpinv ops init_wp_pool st' init_wp_pool_wpinv h
  · intro st n h0 h32
    have hcond : ¬(n < 0 ∨ (NR_WP : Int) ≤ n) := by
      have hnr : (NR_WP : Int) = 32 := rfl
      omega
    unfold free_wp
    rw [if_neg hcond]

theorem claim_C7_witness :
    (∃ st', run_ops [WpOp.create "1" 1, WpOp.create "2" 2, WpOp.remove 0,
        WpOp.remove 0] init_wp_pool = Except.ok st' ∧ WpInv st') ∧
    (free_wp 5 init_wp_pool).1 = 0 := by
  constructor
  · obtain ⟨st', hrun⟩ : ∃ st', run_ops [WpOp.create "1" 1, WpOp.create "2" 2,
        WpOp.remove 0, WpOp.remove 0] init_wp_pool = Except.ok st' := ⟨_, rfl⟩
    exact ⟨st', hrun, claim_C7_partition.1 _ st' hrun⟩
  · exact claim_C7_partition.2 init_wp_pool 5 (by decide) (by decide)

theorem check_wp_aux_step (regs : String → Option Int) (mem : Int → Nat → Int)
    (fuel cur : Nat) (st : WpState) (res : Int) (ents : List (Int × Int × Int)) :
    check_wp_aux regs mem (fuel + 1) cur st res ents =
      (if st.idf (st.next cur) = -1 then .ok (res, ents, st)
       else if st.counter (st.next cur) = 0 then
        check_wp_aux regs mem fuel (st.next cur)
          { st with counter := Function.update st.counter (st.next cur) (st.counter (st.next cur) + 1) } res ents
       else
        match expr (st.wexpr (st.next cur)) regs mem true with
        | .error _ => .error ()
        | .ok (v, succ) =>
            if succ = false then .error ()
            else if v ≠ st.last_val (st.next cur) then
              check_wp_aux regs mem fuel (st.next cur)
                { st with counter := Function.update st.counter (st.next cur) (st.counter (st.next cur) + 1), last_val := Function.update st.last_val (st.next cur) v } 1
                (ents ++ [(st.idf (st.next cur), st.last_val (st.next cur), v)])
            else
              check_wp_aux regs mem fuel (st.next cur)
                { st with counter := Function.update st.counter (st.next cur) (st.counter (st.next cur) + 1), last_val := Function.update st.last_val (st.next cur) v } res ents) := rfl

theorem check_wp_aux_walk (regs : String → Option Int) (mem : Int → Nat → Int)
    (v : Nat → Int) :
    ∀ (l : List Nat) (st : WpState) (cur fuel : Nat) (res : Int)
      (ents : List (Int × Int × Int)),
      List.Chain' (ring_pred st.next st.prev) (cur :: (l ++ [ACT])) →
      st.idf ACT = -1 →
      (∀ x ∈ l, st.idf x ≠ -1) →
      l.Nodup →
      (∀ x ∈ l, st.counter x ≠ 0 → expr (st.wexpr x) regs mem true = Except.ok (v x, true)) →
      l.length < fuel →
      ∃ st', check_wp_aux regs mem fuel cur st res ents = Except.ok
          ((if l.filter (fun x => decide (st.counter x ≠ 0) && decide (v x ≠ st.last_val x)) = [] then res else 1),
           ents ++ (l.filter (fun x => decide (st.counter x ≠ 0) && decide (v x ≠ st.last_val x))).map (fun x => (st.idf x, st.last_val x, v x)),
           st') ∧
        st'.idf = st.idf ∧ st'.wexpr = st.wexpr ∧
        (∀ x, st'.counter x = if x ∈ l then st.counter x + 1 else st.counter x) ∧
        (∀ x, st'.last_val x = if x ∈ l ∧ st.counter x ≠ 0 then v x else st.last_val x) := by
  intro l
  induction l with
  | nil =>
      intro st cur fuel res ents hchain hact hidf hnd hev hfuel
      obtain ⟨f, rfl⟩ : ∃ f, fuel = f + 1 := ⟨fuel - 1, by omega⟩
      rw [List.nil_append] at hchain
      have hnx : st.next cur = ACT := (List.chain'_cons.mp hchain).1.1
      refine ⟨st, ?_, rfl, rfl, ?_, ?_⟩
      · rw [check_wp_aux_step, hnx, if_pos hact]
        simp
      · intro x
        simp
      · intro x
        simp
  | cons c t ih =>
      intro st cur fuel res ents hchain hact hidf hnd hev hfuel
      obtain ⟨f, rfl⟩ : ∃ f, fuel = f + 1 := ⟨fuel - 1, by omega⟩
      rw [List.cons_append, List.chain'_cons] at hchain
      obtain ⟨⟨hnx, hpv⟩, hchain⟩ := hchain
      have hcmem : c ∈ c :: t := List.mem_cons_self c t
      have hidfc : st.idf c ≠ -1 := hidf c hcmem
      have hnotmem : c ∉ t := (List.nodup_cons.mp hnd).1
      have hndt : t.Nodup := (List.nodup_cons.mp hnd).2
      have hfuel' : t.length < f := by
        simp only [List.length_cons] at hfuel
        omega
      by_cases hcnt : st.counter c = 0
      · obtain ⟨st', heq, hidf', hwex', hcnt', hlv'⟩ :=
          ih { st with counter := Function.update st.counter c (st.counter c + 1) } c f res ents
            hchain hact (fun x hx => hidf x (List.mem_cons_of_mem c hx)) hndt
            (by
              intro x hx hcx
              have hxc : x ≠ c := fun hh => hnotmem (hh ▸ hx)
              refine hev x (List.mem_cons_of_mem c hx) ?_
              dsimp only at hcx
              rwa [Function.update_apply, if_neg hxc] at hcx) hfuel'
      -- transfer the filter and map over the counter bump at c
        dsimp only at heq hcnt' hlv'
        have hfc : t.filter (fun x => decide (Function.update st.counter c (st.counter c + 1) x ≠ 0) && decide (v x ≠ st.last_val x))
            = t.filter (fun x => decide (st.counter x ≠ 0) && decide (v x ≠ st.last_val x)) := by
          refine List.filter_congr ?_
          intro x hx
          have hxc : x ≠ c := fun hh => hnotmem (hh ▸ hx)
          simp [Function.update_apply, hxc]
        refine ⟨st', ?_, hidf', hwex', ?_, ?_⟩
        · rw [check_wp_aux_step, hnx, if_neg hidfc, if_pos hcnt, heq, hfc]
          have hfpc : ((c :: t).filter (fun x => decide (st.counter x ≠ 0) && decide (v x ≠ st.last_val x)))
              = t.filter (fun x => decide (st.counter x ≠ 0) && decide (v x ≠ st.last_val x)) :=
            List.filter_cons_of_neg (by simp [hcnt])
          rw [hfpc]
        · intro x
          rw [hcnt' x]
          by_cases hxc : x = c
          · subst hxc
            simp [hnotmem]
          · simp [Function.update_apply, hxc, List.mem_cons]
        · intro x
          rw [hlv' x]
          by_cases hxc : x = c
          · subst hxc
            simp [hnotmem, hcnt]
          · simp [Function.update_apply, hxc, List.mem_cons]
      · have hexpr : expr (st.wexpr c) regs mem true = Except.ok (v c, true) := hev c hcmem hcnt
        rw [check_wp_aux_step, hnx, if_neg hidfc, if_neg hcnt, hexpr]
        dsimp only
        rw [if_neg (show ¬(true = false) by decide)]
        by_cases hch : v c ≠ st.last_val c
        · rw [if_pos hch]
          obtain ⟨st', heq, hidf', hwex', hcnt', hlv'⟩ :=
            ih { st with counter := Function.update st.counter c (st.counter c + 1), last_val := Function.update st.last_val c (v c) } c f 1
              (ents ++ [(st.idf c, st.last_val c, v c)])
              hchain hact (fun x hx => hidf x (List.mem_cons_of_mem c hx)) hndt
              (by
                intro x hx hcx
                have hxc : x ≠ c := fun hh => hnotmem (hh ▸ hx)
                refine hev x (List.mem_cons_of_mem c hx) ?_
                dsimp only at hcx
                rwa [Function.update_apply, if_neg hxc] at hcx) hfuel'
          dsimp only at heq hcnt' hlv'
          have hfc : t.filter (fun x => decide (Function.update st.counter c (st.counter c + 1) x ≠ 0) && decide (v x ≠ Function.update st.last_val c (v c) x))
              = t.filter (fun x => decide (st.counter x ≠ 0) && decide (v x ≠ st.last_val x)) := by
            refine List.filter_congr ?_
            intro x hx
            have hxc : x ≠ c := fun hh => hnotmem (hh ▸ hx)
            simp [Function.update_apply, hxc]
          have hmc : (t.filter (fun x => decide (st.counter x ≠ 0) && decide (v x ≠ st.last_val x))).map (fun x => (st.idf x, Function.update st.last_val c (v c) x, v x))
              = (t.filter (fun x => decide (st.counter x ≠ 0) && decide (v x ≠ st.last_val x))).map (fun x => (st.idf x, st.last_val x, v x)) := by
            refine List.map_congr_left ?_
            intro x hx
            have hxt : x ∈ t := (List.mem_filter.mp hx).1
            have hxc : x ≠ c := fun hh => hnotmem (hh ▸ hxt)
            simp [Function.update_apply, hxc]
          refine ⟨st', ?_, hidf', hwex', ?_, ?_⟩
          · rw [heq, hfc, hmc]
            have hfpc : ((c :: t).filter (fun x => decide (st.counter x ≠ 0) && decide (v x ≠ st.last_val x)))
                = c :: t.filter (fun x => decide (st.counter x ≠ 0) && decide (v x ≠ st.last_val x)) :=
              List.filter_cons_of_pos (by simp [hcnt, hch])
            rw [hfpc]
            simp
          · intro x
            rw [hcnt' x]
            by_cases hxc : x = c
            · subst hxc
              simp [hnotmem]
            · simp [Function.update_apply, hxc, List.mem_cons]
          · intro x
            rw [hlv' x]
            by_cases hxc : x = c
            · subst hxc
              simp [hnotmem, hcnt]
            · simp [Function.update_apply, hxc, List.mem_cons]
        · rw [if_neg hch]
          have hchv : v c = st.last_val c := not_not.mp hch
          obtain ⟨st', heq, hidf', hwex', hcnt', hlv'⟩ :=
            ih { st with counter := Function.update st.counter c (st.counter c + 1), last_val := Function.update st.last_val c (v c) } c f res ents
              hchain hact (fun x hx => hidf x (List.mem_cons_of_mem c hx)) hndt
              (by
                intro x hx hcx
                have hxc : x ≠ c := fun hh => hnotmem (hh ▸ hx)
                refine hev x (List.mem_cons_of_mem c hx) ?_
                dsimp only at hcx
                rwa [Function.update_apply, if_neg hxc] at hcx) hfuel'
          dsimp only at heq hcnt' hlv'
          have hfc : t.filter (fun x => decide (Function.update st.counter c (st.counter c + 1) x ≠ 0) && decide (v x ≠ Function.update st.last_val c (v c) x))
              = t.filter (fun x => decide (st.counter x ≠ 0) && decide (v x ≠ st.last_val x)) := by
            refine List.filter_congr ?_
            intro x hx
            have hxc : x ≠ c := fun hh => hnotmem (hh ▸ hx)
            simp [Function.update_apply, hxc]
          have hmc : (t.filter (fun x => decide (st.counter x ≠ 0) && decide (v x ≠ st.last_val x))).map (fun x => (st.idf x, Function.update st.last_val c (v c) x, v x))
              = (t.filter (fun x => decide (st.counter x ≠ 0) && decide (v x ≠ st.last_val x))).map (fun x => (st.idf x, st.last_val x, v x)) := by
            refine List.map_congr_left ?_
            intro x hx
            have hxt : x ∈ t := (List.mem_filter.mp hx).1
            have hxc : x ≠ c := fun hh => hnotmem (hh ▸ hxt)
            simp [Function.update_apply, hxc]
          refine ⟨st', ?_, hidf', hwex', ?_, ?_⟩
          · rw [heq, hfc, hmc]
            have hfpc : ((c :: t).filter (fun x => decide (st.counter x ≠ 0) && decide (v x ≠ st.last_val x)))
                = t.filter (fun x => decide (st.counter x ≠ 0) && decide (v x ≠ st.last_val x)) :=
              List.filter_cons_of_neg (by simp [hchv])
            rw [hfpc]
          · intro x
            rw [hcnt' x]
            by_cases hxc : x = c
            · subst hxc
              simp [hnotmem]
            · simp [Function.update_apply, hxc, List.mem_cons]
          · intro x
            rw [hlv' x]
            by_cases hxc : x = c
            · subst hxc
              simp [hnotmem, hcnt, hchv]
            · simp [Function.update_apply, hxc, List.mem_cons]

theorem wp_watch_counter0 (e : String) (v0 : Int) (st0 : WpState) (f : Nat) (st1 : WpState)
    (h : wp_watch e v0 st0 = Except.ok (f, st1)) : st1.counter f = 0 := by
  unfold wp_watch new_wp at h
  by_cases hg : st0.idf (st0.next FRE) = -2
  · rw [if_pos hg] at h
    exact Except.noConfusion h
  · rw [if_neg hg] at h
    dsimp only at h
    have h2 := Except.ok.inj h
    have hf : st0.next FRE = f := congrArg Prod.fst h2
    have hst : _ = st1 := congrArg Prod.snd h2
    rw [← hst, ← hf]
    exact Function.update_same _ _ _

theorem filter_unique_mem : ∀ (l : List Nat), l.Nodup → ∀ (w : Nat), w ∈ l →
    ∀ (q : Nat → Bool), q w = true → (∀ c ∈ l, q c = true → c = w) →
    l.filter q = [w] := by
  intro l
  induction l with
  | nil =>
      intro _ w hw
      exact absurd hw (List.not_mem_nil w)
  | cons a t ih =>
      intro hnd w hw q hq hsel
      have hat : a ∉ t := (List.nodup_cons.mp hnd).1
      have hndt : t.Nodup := (List.nodup_cons.mp hnd).2
      rcases List.mem_cons.mp hw with haw | hwt
      · subst haw
        rw [List.filter_cons_of_pos hq]
        have ht : t.filter q = [] := by
          rw [List.filter_eq_nil_iff]
          intro c hc hqc
          exact hat ((hsel c (List.mem_cons_of_mem w hc) hqc) ▸ hc)
        rw [ht]
      · have hqa : ¬ q a = true := by
          intro hqa
          exact hat ((hsel a (List.mem_cons_self a t) hqa) ▸ hwt)
        rw [List.filter_cons_of_neg hqa]
        exact ih hndt w hwt q hq (fun c hc => hsel c (List.mem_cons_of_mem a hc))

/-- C9: a freshly created watchpoint (counter 0, as set by `wp_watch`) is
never reported by the first `check_wp` after its creation — only its counter
is bumped; once primed, a `check_wp` whose re-evaluation yields a value
different from the stored one reports exactly one change entry
`(id, old, new)` for it and stores the new value, so a further `check_wp`
with an unchanged value reports nothing for it. -/
theorem claim_C9_check_all (regs : String → Option Int) (mem : Int → Nat → Int)
    (v : Nat → Int) (st : WpState) (al : List Nat) (w : Nat)
    (hids : id_ok st) (har : IsRing st.next st.prev ACT al)
    (hnd : al.Nodup) (h32 : ∀ a ∈ al, a < 32) (hlen : al.length < 33) (hw : w ∈ al)
    (hev : ∀ c ∈ al, st.counter c ≠ 0 → expr (st.wexpr c) regs mem true = Except.ok (v c, true)) :
    (∀ (e : String) (v0 : Int) (st0 : WpState) (f : Nat) (st1 : WpState),
        wp_watch e v0 st0 = Except.ok (f, st1) → st1.counter f = 0) ∧
    ∃ res ents st', check_wp st regs mem = Except.ok (res, ents, st') ∧
      st'.counter w = st.counter w + 1 ∧
      (st.counter w = 0 → (∀ e ∈ ents, e.1 ≠ st.idf w) ∧ st'.last_val w = st.last_val w) ∧
      (st.counter w ≠ 0 → v w ≠ st.last_val w →
        ents.filter (fun e => decide (e.1 = st.idf w)) = [(st.idf w, st.last_val w, v w)] ∧
        st'.last_val w = v w ∧ res = 1) ∧
      (st.counter w ≠ 0 → v w = st.last_val w →
        (∀ e ∈ ents, e.1 ≠ st.idf w) ∧ st'.last_val w = st.last_val w) := by
  refine ⟨wp_watch_counter0, ?_⟩
  have hchain : List.Chain' (ring_pred st.next st.prev) (ACT :: (al ++ [ACT])) :=
    (isRing_iff _ _ _ _).mp har
  have hact : st.idf ACT = -1 := by
    rw [hids ACT (by decide)]
    decide
  have hidv : ∀ x ∈ al, st.idf x = (x : Int) := by
    intro x hx
    have hx32 := h32 x hx
    rw [hids x (by omega), if_pos hx32]
  have hidf : ∀ x ∈ al, st.idf x ≠ -1 := by
    intro x hx
    rw [hidv x hx]
    omega
  obtain ⟨st', heq, hidf', hwex', hcnt', hlv'⟩ :=
    check_wp_aux_walk regs mem v al st ACT 33 0 [] hchain hact hidf hnd hev hlen
  rw [List.nil_append] at heq
  refine ⟨_, _, st', heq, ?_, ?_, ?_, ?_⟩
  · rw [hcnt' w, if_pos hw]
  · intro hcw0
    constructor
    · intro e he
      obtain ⟨c, hcf, rfl⟩ := List.mem_map.mp he
      have hcmem : c ∈ al := (List.mem_filter.mp hcf).1
      have hfpc : (decide (st.counter c ≠ 0) && decide (v c ≠ st.last_val c)) = true :=
        (List.mem_filter.mp hcf).2
      show st.idf c ≠ st.idf w
      intro heq1
      rw [hidv c hcmem, hidv w hw] at heq1
      have hcw : c = w := by exact_mod_cast heq1
      subst hcw
      simp [hcw0] at hfpc
    · rw [hlv' w, if_neg (fun hh => hh.2 hcw0)]
  · intro hcw hchw
    refine ⟨?_, ?_, ?_⟩
    · rw [List.filter_map, List.filter_filter]
      have hsel : al.filter (fun c => decide (st.idf c = st.idf w) && (decide (st.counter c ≠ 0) && decide (v c ≠ st.last_val c))) = [w] := by
        refine filter_unique_mem al hnd w hw _ ?_ ?_
        · simp [hcw, hchw]
        · intro c hc hqc
          simp only [Bool.and_eq_true, decide_eq_true_eq] at hqc
          have := hqc.1
          rw [hidv c hc, hidv w hw] at this
          exact_mod_cast this
      show (al.filter (fun c => decide (st.idf c = st.idf w) && (decide (st.counter c ≠ 0) && decide (v c ≠ st.last_val c)))).map (fun x => (st.idf x, st.last_val x, v x)) = [(st.idf w, st.last_val w, v w)]
      rw [hsel]
      rfl
    · rw [hlv' w, if_pos ⟨hw, hcw⟩]
    · have hne : al.filter (fun x => decide (st.counter x ≠ 0) && decide (v x ≠ st.last_val x)) ≠ [] :=
        List.ne_nil_of_mem (List.mem_filter.mpr ⟨hw, by simp [hcw, hchw]⟩)
      rw [if_neg hne]
  · intro hcw hchw
    constructor
    · intro e he
      obtain ⟨c, hcf, rfl⟩ := List.mem_map.mp he
      have hcmem : c ∈ al := (List.mem_filter.mp hcf).1
      have hfpc : (decide (st.counter c ≠ 0) && decide (v c ≠ st.last_val c)) = true :=
        (List.mem_filter.mp hcf).2
      show st.idf c ≠ st.idf w
      intro heq1
      rw [hidv c hcmem, hidv w hw] at heq1
      have hcw2 : c = w := by exact_mod_cast heq1
      subst hcw2
      simp [hchw] at hfpc
    · rw [hlv' w, if_pos ⟨hw, hcw⟩]
      exact hchw

theorem print_wp_aux_ring (st : WpState) (hact : st.idf ACT = -1) :
    ∀ (al : List Nat), (∀ a ∈ al, st.idf a ≠ -1) →
    ∀ (cur fuel : Nat) (acc : List (Int × String × Int)),
      List.Chain' (ring_pred st.next st.prev) ((ACT :: al) ++ [cur]) →
      al.length < fuel →
      print_wp_aux fuel cur st acc =
        acc ++ al.reverse.map (fun a => (st.idf a, st.wexpr a, st.last_val a)) := by
  intro al
  induction al using List.reverseRecOn with
  | nil =>
      intro _ cur fuel acc hchain hfuel
      obtain ⟨f, rfl⟩ : ∃ f, fuel = f + 1 := ⟨fuel - 1, by omega⟩
      have hpv : st.prev cur = ACT := (List.chain'_cons.mp hchain).1.2
      rw [show print_wp_aux (f + 1) cur st acc = (if st.idf (st.prev cur) = -1 then acc else print_wp_aux f (st.prev cur) st (acc ++ [(st.idf (st.prev cur), st.wexpr (st.prev cur), st.last_val (st.prev cur))])) from rfl]
      rw [hpv, if_pos hact]
      simp
  | append_singleton as a ih =>
      intro hidf cur fuel acc hchain hfuel
      obtain ⟨f, rfl⟩ : ∃ f, fuel = f + 1 := ⟨fuel - 1, by omega⟩
      have hre : (ACT :: (as ++ [a])) ++ [cur] = ((ACT :: as) ++ [a]) ++ [cur] := by simp
      rw [hre, List.chain'_append] at hchain
      obtain ⟨h1, h2, h3⟩ := hchain
      have hmema : a ∈ ((ACT :: (as ++ [a])).getLast?) := by
        rw [Option.mem_def, show ACT :: (as ++ [a]) = (ACT :: as) ++ [a] from by simp, List.getLast?_concat]
      have hpv : st.prev cur = a := (h3 a hmema cur (by simp)).2
      have hia : st.idf a ≠ -1 := hidf a (by simp)
      rw [show print_wp_aux (f + 1) cur st acc = (if st.idf (st.prev cur) = -1 then acc else print_wp_aux f (st.prev cur) st (acc ++ [(st.idf (st.prev cur), st.wexpr (st.prev cur), st.last_val (st.prev cur))])) from rfl]
      rw [hpv, if_neg hia]
      have hlen : as.length < f := by
        simp at hfuel
        omega
      rw [ih (fun x hx => hidf x (by simp [hx])) a f
        (acc ++ [(st.idf a, st.wexpr a, st.last_val a)]) h1 hlen]
      simp

/-- C10 (amended): `print_wp` walks `prev` pointers from the head sentinel,
so it enumerates the active ring `al` (which `new_wp` maintains in LIFO,
most-recent-first order) in reverse — i.e. in creation order, oldest
first. -/
theorem claim_C10_amended (st : WpState) (al : List Nat)
    (hids : id_ok st) (har : IsRing st.next st.prev ACT al)
    (h32 : ∀ a ∈ al, a < 32) (hlen : al.length < 33) :
    print_wp st = al.reverse.map (fun a => (st.idf a, st.wexpr a, st.last_val a)) := by
  have hchain : List.Chain' (ring_pred st.next st.prev) ((ACT :: al) ++ [ACT]) :=
    (isRing_iff _ _ _ _).mp har
  have hact : st.idf ACT = -1 := by
    rw [hids ACT (by decide)]
    decide
  have hidf : ∀ a ∈ al, st.idf a ≠ -1 := by
    intro a ha
    have ha32 := h32 a ha
    rw [hids a (by omega), if_pos ha32]
    omega
  have h := print_wp_aux_ring st hact al hidf ACT 33 [] hchain hlen
  rw [List.nil_append] at h
  exact h

theorem claim_C10_amended_witness :
    print_wp wp_test_state = ([0] : List Nat).reverse.map
      (fun a => (wp_test_state.idf a, wp_test_state.wexpr a, wp_test_state.last_val a)) :=
  claim_C10_amended wp_test_state [0] (by decide) (by decide) (by decide) (by decide)

theorem claim_C9_witness :
    (∀ (e : String) (v0 : Int) (st0 : WpState) (f : Nat) (st1 : WpState),
        wp_watch e v0 st0 = Except.ok (f, st1) → st1.counter f = 0) ∧
    ∃ res ents st', check_wp wp_test_state no_regs memz = Except.ok (res, ents, st') ∧
      st'.counter 0 = wp_test_state.counter 0 + 1 ∧
      (wp_test_state.counter 0 = 0 →
        (∀ e ∈ ents, e.1 ≠ wp_test_state.idf 0) ∧ st'.last_val 0 = wp_test_state.last_val 0) ∧
      (wp_test_state.counter 0 ≠ 0 → (5 : Int) ≠ wp_test_state.last_val 0 →
        ents.filter (fun e => decide (e.1 = wp_test_state.idf 0)) = [(wp_test_state.idf 0, wp_test_state.last_val 0, 5)] ∧
        st'.last_val 0 = 5 ∧ res = 1) ∧
      (wp_test_state.counter 0 ≠ 0 → (5 : Int) = wp_test_state.last_val 0 →
        (∀ e ∈ ents, e.1 ≠ wp_test_state.idf 0) ∧ st'.last_val 0 = wp_test_state.last_val 0) :=
  claim_C9_check_all no_regs memz (fun _ => 5) wp_test_state [0] 0 (by decide) (by decide)
    (by decide) (by decide) (by decide) (by decide) (by decide)
